import Mathlib

/-!
Verification of the walb userspace toolchain against its specification.

This file gives a shallow Lean embedding of the parts of the code base the
checked claims are about:

* the wlog-to-wdiff converter (`convertLogToDiff`, `Converter::convertWlog`
  from `src/walb_diff_converter.hpp`),
* the diff record validity check (`walb::diff::Record::isValid`),
* the log-pack header writer (`LogPackHeader::addNormalIo` /
  `addDiscardIo` / `addPadding`),
* the diff merger window predicate and its merge pass
  (`DiffMerger::shouldMerge`, `src/walb_diff_merge.hpp`),
* the wlog redo engine (`binsrc/wlog-redo.cpp`): IO objects, coalescing,
  the overlap map, and the submission / completion pipeline.

Machine integers are embedded as `Nat`; byte buffers as `List Nat`;
fallible operations as `Option` / `Except`.  Definitions follow the C++
source statement by statement; definitions for code that is not shipped
under `src/` are marked `Modelled from the spec:` in their doc comments.
-/

namespace Walb

/-- Logical block size in bytes (`LOGICAL_BLOCK_SIZE`). -/
def LOGICAL_BLOCK_SIZE : Nat := 512

/-- `capacity_pb(pbs, lb)`: number of physical blocks needed to hold `lb`
logical blocks, i.e. `ceil(lb * 512 / pbs)` (walb block arithmetic, §3 of the
spec; the C macro lives in the walb kernel headers). -/
def capacity_pb (pbs lb : Nat) : Nat := (lb * LOGICAL_BLOCK_SIZE + pbs - 1) / pbs

/-- `n_lb_in_pb(pbs)`: logical blocks per physical block (`pbs / 512`). -/
def n_lb_in_pb (pbs : Nat) : Nat := pbs / LOGICAL_BLOCK_SIZE

/-- Sum of the buffer interpreted as 32-bit little-endian words, the tail
bytes zero-padded (helper for `calcChecksum`). -/
def sumWords : List Nat → Nat
  | a :: b :: c :: d :: rest =>
      (a + 256 * b + 65536 * c + 16777216 * d) + sumWords rest
  | [] => 0
  | [a] => a
  | [a, b] => a + 256 * b
  | [a, b, c] => a + 256 * b + 65536 * c

/-- Modelled from the spec: `cybozu::util::calcChecksum` (`checksum.hpp` is
not under `src/`).  §4.A: 32-bit rolling sum over the buffer as little-endian
words, tail zero-padded, seeded with `salt`, accumulated mod `2^32` and
finalized by two's-complement negation. -/
def calcChecksum (data : List Nat) (salt : Nat) : Nat :=
  (2 ^ 32 - (salt + sumWords data) % 2 ^ 32) % 2 ^ 32

/-- Modelled from the spec: `cybozu::util::calcIsAllZero` (§4.A AllZero):
byte-wise equality to zero. -/
def calcIsAllZero (data : List Nat) : Bool := data.all (· == 0)

/-- `struct walb::LogRecord` (walb log record).  The three flag bits
`LOG_RECORD_EXIST/PADDING/DISCARD` are embedded as separate booleans. -/
structure LogRecord where
  checksum : Nat := 0
  lsid : Nat := 0
  lsid_local : Nat := 0
  isExist : Bool := false
  isPadding : Bool := false
  isDiscard : Bool := false
  offset : Nat := 0
  io_size : Nat := 0
deriving DecidableEq

/-- `LogRecord::ioSizeLb()` = `io_size`. -/
def LogRecord.ioSizeLb (rec : LogRecord) : Nat := rec.io_size

/-- `LogRecord::ioSizePb(pbs)` = `capacity_pb(pbs, io_size)`. -/
def LogRecord.ioSizePb (rec : LogRecord) (pbs : Nat) : Nat :=
  capacity_pb pbs rec.io_size

/-- `LogRecord::hasData()` = exist and not discard. -/
def LogRecord.hasData (rec : LogRecord) : Bool := rec.isExist && !rec.isDiscard

/-- `walb::LogBlockShared`: a physical-block-sized buffer sequence.  Each
entry of `data` is one block's bytes. -/
structure LogBlockShared where
  pbs : Nat
  data : List (List Nat)
deriving DecidableEq

/-- `LogBlockShared::get(idx)`. -/
def LogBlockShared.get (blockS : LogBlockShared) (idx : Nat) : List Nat :=
  blockS.data.getD idx []

/-- The loop body of `LogBlockShared::calcIsAllZero`: starting at block `i`
with `remaining` bytes left, check `min(pbs, remaining)` bytes of each block
in turn.  (The C++ loop needs `0 < pbs`, enforced by `checkPbs`; for
`pbs = 0` this definition returns `true` immediately.) -/
def LogBlockShared.calcIsAllZeroFrom (blockS : LogBlockShared) :
    Nat → Nat → Bool := fun remaining i =>
  if h : 0 < remaining ∧ 0 < blockS.pbs then
    let s := min blockS.pbs remaining
    if calcIsAllZero ((blockS.get i).take s) then
      blockS.calcIsAllZeroFrom (remaining - s) (i + 1)
    else false
  else true
termination_by remaining _ => remaining
decreasing_by
  omega

/-- `LogBlockShared::calcIsAllZero(ioSizeLb)`. -/
def LogBlockShared.calcIsAllZero (blockS : LogBlockShared) (ioSizeLb : Nat) :
    Bool :=
  blockS.calcIsAllZeroFrom (ioSizeLb * LOGICAL_BLOCK_SIZE) 0

/-- The copy loop of `convertLogToDiff`: copy `min(pbs, remaining)` bytes from
each of `n` blocks starting at block index `i` into the output buffer. -/
def LogBlockShared.copyFrom (blockS : LogBlockShared) :
    Nat → Nat → Nat → List Nat
  | _, 0, _ => []
  | i, n + 1, remaining =>
      let s := min blockS.pbs remaining
      (blockS.get i).take s ++ blockS.copyFrom (i + 1) n (remaining - s)

/-- `WALB_DIFF_CMPR_NONE`. -/
def WALB_DIFF_CMPR_NONE : Nat := 0

/-- `WALB_DIFF_CMPR_SNAPPY`. -/
def WALB_DIFF_CMPR_SNAPPY : Nat := 1

/-- Modelled from the spec: `WALB_DIFF_CMPR_MAX` (`walb_diff.h` is not under
`src/`); §3.3 lists the compression types `{NONE, SNAPPY, …}`, so `MAX` is
the first unused tag. -/
def WALB_DIFF_CMPR_MAX : Nat := 2

/-- `struct walb_diff_record`.  The flag bits `EXIST/ALLZERO/DISCARD` of the
`flags:u8` field are embedded as separate booleans. -/
structure DiffRecord where
  io_address : Nat := 0
  io_blocks : Nat := 0
  flagExist : Bool := false
  flagAllZero : Bool := false
  flagDiscard : Bool := false
  compression_type : Nat := 0
  data_offset : Nat := 0
  data_size : Nat := 0
  checksum : Nat := 0
deriving DecidableEq

/-- `DiffRecord::init()`: zero the record, then set the EXIST flag. -/
def DiffRecord.init0 : DiffRecord := { flagExist := true }

/-- `Record::isNormal()`: neither ALLZERO nor DISCARD. -/
def DiffRecord.isNormal (r : DiffRecord) : Bool :=
  !r.flagAllZero && !r.flagDiscard

/-- `Record::setDiscard()`: clear ALLZERO, set DISCARD. -/
def DiffRecord.setDiscard (r : DiffRecord) : DiffRecord :=
  { r with flagAllZero := false, flagDiscard := true }

/-- `Record::setAllZero()`: set ALLZERO, clear DISCARD. -/
def DiffRecord.setAllZero (r : DiffRecord) : DiffRecord :=
  { r with flagAllZero := true, flagDiscard := false }

/-- `Record::endIoAddress()` = `io_address + io_blocks`. -/
def DiffRecord.endIoAddress (r : DiffRecord) : Nat := r.io_address + r.io_blocks

/-- A diff IO payload (`walb::diff::IoData` of `src/unnamed/part_000`, which
also stands in for the `DiffIo` used by the converter): logical block count,
compression type and the owned payload bytes. -/
structure DiffIo where
  ioBlocks : Nat := 0
  compressionType : Nat := 0
  data : List Nat := []
deriving DecidableEq

/-- `IoData::set(rec)`: `IoWrap::set0(rec)` (copy blocks/compression for a
normal record, zero them otherwise) followed by `data_.resize(rec.data_size)`
(truncate or zero-pad the payload to `data_size` bytes). -/
def DiffIo.set (io : DiffIo) (rec : DiffRecord) : DiffIo :=
  { ioBlocks := if rec.isNormal then rec.io_blocks else 0
    compressionType :=
      if rec.isNormal then rec.compression_type else WALB_DIFF_CMPR_NONE
    data := io.data.take rec.data_size ++
      List.replicate (rec.data_size - io.data.length) 0 }

/-- `IoWrap::calcChecksum()`: 0 for an empty IO, otherwise the rolling
checksum of the payload with salt 0. -/
def DiffIo.calcChecksum (io : DiffIo) : Nat :=
  if io.ioBlocks == 0 then 0 else Walb.calcChecksum io.data 0

/-- `convertLogToDiff` (`src/walb_diff_converter.hpp`): convert one log
record plus its payload blocks into a diff record and diff IO.  `none`
replaces the C++ `return false` for padding records. -/
def convertLogToDiff (pbs : Nat) (rec : LogRecord) (blockS : LogBlockShared) :
    Option (DiffRecord × DiffIo) :=
  if rec.isPadding then none
  else
    let mrec0 : DiffRecord :=
      { DiffRecord.init0 with io_address := rec.offset, io_blocks := rec.io_size }
    if rec.isDiscard then
      let mrec := { mrec0.setDiscard with data_size := 0 }
      some (mrec, DiffIo.set {} mrec)
    else if blockS.calcIsAllZero rec.ioSizeLb then
      let mrec := { mrec0.setAllZero with data_size := 0 }
      some (mrec, DiffIo.set {} mrec)
    else
      let ioSizeB := rec.ioSizeLb * LOGICAL_BLOCK_SIZE
      let buf := blockS.copyFrom 0 (rec.ioSizePb pbs) ioSizeB
      let dio := { DiffIo.set {} mrec0 with data := buf }
      let mrec :=
        { mrec0 with
          compression_type := WALB_DIFF_CMPR_NONE
          data_offset := 0
          data_size := ioSizeB
          checksum := dio.calcChecksum }
      some (mrec, dio)

/-- `walb::diff::Record::isValid()` (`src/unnamed/part_000`).  Note: in the
non-normal branch the C++ merely logs "dataSize must be 0" when
`dataSize() != 0` and still returns `true`; only the EXIST check and the
ALLZERO/DISCARD exclusivity check reject. -/
def DiffRecord.isValid (r : DiffRecord) : Bool :=
  if !r.flagExist then false
  else if !r.isNormal then
    if r.flagAllZero && r.flagDiscard then false
    else true
  else if WALB_DIFF_CMPR_MAX ≤ r.compression_type then false
  else if r.io_blocks == 0 then false
  else true

/-- On a block list whose entries all have length `pbs`, the converter's copy
loop starting at block `i` over `n` blocks copies exactly the first
`remaining` bytes of the concatenation of those blocks. -/
theorem LogBlockShared.copyFrom_eq_take_flatten (blockS : LogBlockShared)
    (hlen : ∀ b ∈ blockS.data, b.length = blockS.pbs) :
    ∀ (n i r : Nat), i + n ≤ blockS.data.length →
      blockS.copyFrom i n r = ((blockS.data.drop i).take n).flatten.take r := by
  intro n
  induction n with
  | zero => intro i r _; simp [LogBlockShared.copyFrom]
  | succ n ih =>
    intro i r hle
    have hi : i < blockS.data.length := by omega
    have hget : blockS.get i = blockS.data[i] :=
      List.getD_eq_getElem blockS.data [] hi
    have hblen : blockS.data[i].length = blockS.pbs :=
      hlen _ (blockS.data.getElem_mem hi)
    rw [show blockS.copyFrom i (n + 1) r =
        (blockS.get i).take (min blockS.pbs r) ++
          blockS.copyFrom (i + 1) n (r - min blockS.pbs r) from rfl]
    rw [List.drop_eq_getElem_cons hi, List.take_succ_cons, List.flatten_cons,
      List.take_append_eq_append_take, hblen,
      ih (i + 1) (r - min blockS.pbs r) (by omega)]
    have hsub : r - min blockS.pbs r = r - blockS.pbs := by omega
    rw [hsub, hget]
    congr 1
    rcases Nat.le_total blockS.pbs r with h | h
    · rw [Nat.min_eq_left h, List.take_of_length_le (by omega),
        List.take_of_length_le (by omega)]
    · rw [Nat.min_eq_right h]

/-- C1: `convertLogToDiff` case analysis.  A padding record yields no diff
record; a discard record yields a DISCARD diff record with empty payload; an
all-zero payload yields an ALLZERO diff record with empty payload; otherwise
the payload bytes are copied as-is with `compression_type = NONE`,
`data_size = io_size * 512`, and the checksum taken over that payload. -/
theorem convertLogToDiff_spec (pbs : Nat) (rec : LogRecord)
    (blockS : LogBlockShared)
    (hpbs : blockS.pbs = pbs)
    (hlen : ∀ b ∈ blockS.data, b.length = pbs)
    (hnb : rec.ioSizePb pbs ≤ blockS.data.length) :
    (rec.isPadding = true → convertLogToDiff pbs rec blockS = none) ∧
    (rec.isPadding = false → rec.isDiscard = true →
      ∃ mrec dio, convertLogToDiff pbs rec blockS = some (mrec, dio) ∧
        mrec.flagDiscard = true ∧ mrec.data_size = 0 ∧ dio.data = []) ∧
    (rec.isPadding = false → rec.isDiscard = false →
      blockS.calcIsAllZero rec.ioSizeLb = true →
      ∃ mrec dio, convertLogToDiff pbs rec blockS = some (mrec, dio) ∧
        mrec.flagAllZero = true ∧ mrec.data_size = 0 ∧ dio.data = []) ∧
    (rec.isPadding = false → rec.isDiscard = false →
      blockS.calcIsAllZero rec.ioSizeLb = false →
      ∃ mrec dio, convertLogToDiff pbs rec blockS = some (mrec, dio) ∧
        dio.data = ((blockS.data.take (rec.ioSizePb pbs)).flatten).take
          (rec.io_size * LOGICAL_BLOCK_SIZE) ∧
        mrec.compression_type = WALB_DIFF_CMPR_NONE ∧
        mrec.data_size = rec.io_size * LOGICAL_BLOCK_SIZE ∧
        (0 < rec.io_size → mrec.checksum = calcChecksum dio.data 0)) := by
  refine ⟨fun hp => ?_, fun hp hd => ?_, fun hp hd hz => ?_, fun hp hd hz => ?_⟩
  · simp [convertLogToDiff, hp]
  · simp only [convertLogToDiff, hp, hd, Bool.false_eq_true, if_false, if_true]
    exact ⟨_, _, rfl, rfl, rfl, by
      simp [DiffIo.set, DiffRecord.setDiscard, DiffRecord.isNormal]⟩
  · simp only [convertLogToDiff, hp, hd, hz,
      Bool.false_eq_true, if_false, if_true]
    exact ⟨_, _, rfl, rfl, rfl, by
      simp [DiffIo.set, DiffRecord.setAllZero, DiffRecord.isNormal]⟩
  · simp only [convertLogToDiff, hp, hd, hz,
      Bool.false_eq_true, if_false, if_true]
    refine ⟨_, _, rfl, ?_, rfl, rfl, ?_⟩
    · have := blockS.copyFrom_eq_take_flatten (by rw [hpbs]; exact hlen)
        (rec.ioSizePb pbs) 0 (rec.io_size * LOGICAL_BLOCK_SIZE) (by omega)
      simpa [LogRecord.ioSizeLb] using this
    · intro hsz
      simp [DiffIo.calcChecksum, DiffIo.set, DiffRecord.init0,
        DiffRecord.isNormal, LogRecord.ioSizeLb, Nat.pos_iff_ne_zero.mp hsz]

set_option maxRecDepth 100000 in
/-- C1 witness: the copy branch of the theorem applied to a concrete
one-logical-block record (`io_size = 1`, `pbs = 512`) whose 512-byte
payload is all 7s — so `calcIsAllZero` is `false` (first conjunct) and the
converter really produces an uncompressed diff record copying the payload,
with `data_size = 512` and the checksum over it. -/
theorem convertLogToDiff_spec_witness :
    ((LogBlockShared.mk 512 [List.replicate 512 7]).calcIsAllZero
      (LogRecord.mk 0 0 0 true false false 5 1).ioSizeLb = false) ∧
    (∃ mrec dio,
      convertLogToDiff 512 (LogRecord.mk 0 0 0 true false false 5 1)
        (LogBlockShared.mk 512 [List.replicate 512 7]) = some (mrec, dio) ∧
      dio.data = (((LogBlockShared.mk 512 [List.replicate 512 7]).data.take
          ((LogRecord.mk 0 0 0 true false false 5 1).ioSizePb 512)).flatten).take
        ((LogRecord.mk 0 0 0 true false false 5 1).io_size *
          LOGICAL_BLOCK_SIZE) ∧
      mrec.compression_type = WALB_DIFF_CMPR_NONE ∧
      mrec.data_size = (LogRecord.mk 0 0 0 true false false 5 1).io_size *
        LOGICAL_BLOCK_SIZE ∧
      (0 < (LogRecord.mk 0 0 0 true false false 5 1).io_size →
        mrec.checksum = calcChecksum dio.data 0)) := by
  have hz : (LogBlockShared.mk 512 [List.replicate 512 7]).calcIsAllZero
      (LogRecord.mk 0 0 0 true false false 5 1).ioSizeLb = false := by
    show (LogBlockShared.mk 512
      [List.replicate 512 7]).calcIsAllZeroFrom 512 0 = false
    rw [LogBlockShared.calcIsAllZeroFrom]
    simp [LogBlockShared.get, calcIsAllZero]
  have hlen : ∀ b ∈ (LogBlockShared.mk 512 [List.replicate 512 7]).data,
      b.length = 512 := by
    intro b hb
    rw [List.mem_singleton] at hb
    subst hb
    exact List.length_replicate 512 7
  exact ⟨hz,
    (convertLogToDiff_spec 512 _ _ rfl hlen (by decide)).2.2.2 rfl rfl hz⟩

/-- C6 (failing input): `Record::isValid` accepts a DISCARD record with
`data_size = 1`: the C++ only logs "dataSize must be 0" without rejecting,
so a non-normal record with a nonzero `data_size` passes the validity
check even though both the log message and the spec require `data_size = 0`.
(The ALLZERO/DISCARD exclusivity half of the check does reject.) -/
theorem isValid_accepts_nonzero_data_size_nonnormal :
    (DiffRecord.isValid
      { flagExist := true, flagDiscard := true, data_size := 1 }) = true ∧
    ({ flagExist := true, flagDiscard := true, data_size := 1 } :
      DiffRecord).data_size ≠ 0 ∧
    (DiffRecord.isValid
      { flagExist := true, flagAllZero := true, flagDiscard := true }) = false := by
  decide

/-- Modelled from the spec: `max_n_log_record_in_sector(pbs)` (walb kernel
header, not under `src/`).  §6.1 lays out 32-byte records starting at byte 28
of the one-PB header block, so one PB holds `(pbs - 28) / 32` records. -/
def max_n_log_record_in_sector (pbs : Nat) : Nat := (pbs - 28) / 32

/-- Modelled from the spec: `MAX_TOTAL_IO_SIZE_IN_LOGPACK_HEADER` (walb
kernel header, not under `src/`).  `total_io_size` is read through a 16-bit
accessor in `LogPackHeader`, so the bound is the largest 16-bit value. -/
def MAX_TOTAL_IO_SIZE_IN_LOGPACK_HEADER : Nat := 65535

/-- `walb::LogPackHeader`: the one-PB log-pack header.  `n_records` is the
length of `records`; `total_io_size` and `n_padding` are kept as derived
functions of the record list, which the C++ keeps in sync field-by-field. -/
structure LogPackHeader where
  pbs : Nat
  salt : Nat
  totalIoSize : Nat := 0
  logpackLsid : Nat := 0
  records : List LogRecord := []
deriving DecidableEq

/-- `LogPackHeader::nRecords()`. -/
def LogPackHeader.nRecords (h : LogPackHeader) : Nat := h.records.length

/-- `LogPackHeader::nPadding()`. -/
def LogPackHeader.nPadding (h : LogPackHeader) : Nat :=
  (h.records.filter (·.isPadding)).length

/-- `LogPackHeader::addNormalIo(offset, size)`.  `Except.error` models the
thrown exception, `.ok none` the `return false` (pack full), `.ok (some h')`
success. -/
def LogPackHeader.addNormalIo (h : LogPackHeader) (offset size : Nat) :
    Except String (Option LogPackHeader) :=
  if max_n_log_record_in_sector h.pbs ≤ h.nRecords then .ok none
  else if MAX_TOTAL_IO_SIZE_IN_LOGPACK_HEADER <
      h.totalIoSize + capacity_pb h.pbs size then .ok none
  else if size = 0 then .error "Normal IO can not be zero-sized."
  else
    let r : LogRecord :=
      { isExist := true, offset := offset, io_size := size,
        lsid_local := h.totalIoSize + 1,
        lsid := h.logpackLsid + (h.totalIoSize + 1), checksum := 0 }
    .ok (some { h with
                  records := h.records ++ [r],
                  totalIoSize := h.totalIoSize + capacity_pb h.pbs size })

/-- `LogPackHeader::addDiscardIo(offset, size)`.  Discard records do not
update `total_io_size`. -/
def LogPackHeader.addDiscardIo (h : LogPackHeader) (offset size : Nat) :
    Except String (Option LogPackHeader) :=
  if max_n_log_record_in_sector h.pbs ≤ h.nRecords then .ok none
  else if size = 0 then .error "Discard IO can not be zero-sized."
  else
    let r : LogRecord :=
      { isExist := true, isDiscard := true, offset := offset, io_size := size,
        lsid_local := h.totalIoSize + 1,
        lsid := h.logpackLsid + (h.totalIoSize + 1), checksum := 0 }
    .ok (some { h with records := h.records ++ [r] })

/-- `LogPackHeader::addPadding(size)`.  At most one padding per pack; the
size must be PB-aligned and may be 0. -/
def LogPackHeader.addPadding (h : LogPackHeader) (size : Nat) :
    Except String (Option LogPackHeader) :=
  if max_n_log_record_in_sector h.pbs ≤ h.nRecords then .ok none
  else if MAX_TOTAL_IO_SIZE_IN_LOGPACK_HEADER <
      h.totalIoSize + capacity_pb h.pbs size then .ok none
  else if 0 < h.nPadding then .ok none
  else if size % n_lb_in_pb h.pbs ≠ 0 then
    .error "Padding size must be pbs-aligned."
  else
    let r : LogRecord :=
      { isExist := true, isPadding := true, offset := 0, io_size := size,
        lsid_local := h.totalIoSize + 1,
        lsid := h.logpackLsid + (h.totalIoSize + 1), checksum := 0 }
    .ok (some { h with
                  records := h.records ++ [r],
                  totalIoSize := h.totalIoSize + capacity_pb h.pbs size })

/-- C8: every successful record add appends one record with
`lsid_local = total_io_size_before + 1` and
`lsid = logpack_lsid + lsid_local`; normal and padding adds grow
`total_io_size` by `capacity_pb(pbs, size)` while a discard add leaves it
unchanged. -/
theorem logPackHeader_add_lsid_policy (h : LogPackHeader) (offset size : Nat) :
    (∀ h', h.addNormalIo offset size = .ok (some h') →
      ∃ r, h'.records = h.records ++ [r] ∧
        r.lsid_local = h.totalIoSize + 1 ∧
        r.lsid = h.logpackLsid + r.lsid_local ∧
        h'.totalIoSize = h.totalIoSize + capacity_pb h.pbs size) ∧
    (∀ h', h.addDiscardIo offset size = .ok (some h') →
      ∃ r, h'.records = h.records ++ [r] ∧
        r.lsid_local = h.totalIoSize + 1 ∧
        r.lsid = h.logpackLsid + r.lsid_local ∧
        h'.totalIoSize = h.totalIoSize) ∧
    (∀ h', h.addPadding size = .ok (some h') →
      ∃ r, h'.records = h.records ++ [r] ∧
        r.lsid_local = h.totalIoSize + 1 ∧
        r.lsid = h.logpackLsid + r.lsid_local ∧
        h'.totalIoSize = h.totalIoSize + capacity_pb h.pbs size) := by
  refine ⟨fun h' heq => ?_, fun h' heq => ?_, fun h' heq => ?_⟩
  · simp only [LogPackHeader.addNormalIo] at heq
    split_ifs at heq <;>
      first
        | (simp only [Except.ok.injEq, Option.some.injEq] at heq
           subst heq
           exact ⟨_, rfl, rfl, rfl, rfl⟩)
        | simp at heq
  · simp only [LogPackHeader.addDiscardIo] at heq
    split_ifs at heq <;>
      first
        | (simp only [Except.ok.injEq, Option.some.injEq] at heq
           subst heq
           exact ⟨_, rfl, rfl, rfl, rfl⟩)
        | simp at heq
  · simp only [LogPackHeader.addPadding] at heq
    split_ifs at heq <;>
      first
        | (simp only [Except.ok.injEq, Option.some.injEq] at heq
           subst heq
           exact ⟨_, rfl, rfl, rfl, rfl⟩)
        | simp at heq

/-- C8 witness: the policy evaluated on a concrete pack with one prior
record (`pbs = 512`, one 8-LB normal IO added after a 4-LB one). -/
theorem logPackHeader_add_lsid_policy_witness :
    ∃ h', (LogPackHeader.mk 512 0 4 100
        [{ isExist := true, offset := 0, io_size := 2048 }]).addNormalIo 16 8 =
      .ok (some h') ∧
    ∃ r, h'.records =
        [{ isExist := true, offset := 0, io_size := 2048 }] ++ [r] ∧
      r.lsid_local = 4 + 1 ∧
      r.lsid = 100 + r.lsid_local ∧
      h'.totalIoSize = 4 + capacity_pb 512 8 := by
  refine ⟨_, rfl, ?_⟩
  have := (logPackHeader_add_lsid_policy
    (LogPackHeader.mk 512 0 4 100
      [{ isExist := true, offset := 0, io_size := 2048 }]) 16 8).1 _ rfl
  simpa using this

/-- C10: on a pack that is not full, adding a zero-sized normal or discard
IO throws (models as `.error`) rather than returning false, `.ok none`
(false) arises for a zero-sized add only when the pack is full, and a
zero-sized padding record is accepted when no padding exists yet. -/
theorem logPackHeader_add_zero_size (h : LogPackHeader) (offset : Nat) :
    (h.nRecords < max_n_log_record_in_sector h.pbs →
      h.totalIoSize ≤ MAX_TOTAL_IO_SIZE_IN_LOGPACK_HEADER →
      ∃ msg, h.addNormalIo offset 0 = .error msg) ∧
    (h.nRecords < max_n_log_record_in_sector h.pbs →
      ∃ msg, h.addDiscardIo offset 0 = .error msg) ∧
    (h.addNormalIo offset 0 = .ok none →
      max_n_log_record_in_sector h.pbs ≤ h.nRecords ∨
        MAX_TOTAL_IO_SIZE_IN_LOGPACK_HEADER < h.totalIoSize) ∧
    (h.addDiscardIo offset 0 = .ok none →
      max_n_log_record_in_sector h.pbs ≤ h.nRecords) ∧
    (h.nRecords < max_n_log_record_in_sector h.pbs →
      h.totalIoSize ≤ MAX_TOTAL_IO_SIZE_IN_LOGPACK_HEADER →
      h.nPadding = 0 →
      ∃ h', h.addPadding 0 = .ok (some h')) := by
  have hcap : capacity_pb h.pbs 0 = 0 := by
    simp only [capacity_pb, LOGICAL_BLOCK_SIZE, Nat.zero_mul, Nat.zero_add]
    rcases Nat.eq_zero_or_pos h.pbs with hz | hz
    · simp [hz]
    · exact Nat.div_eq_of_lt (by omega)
  refine ⟨fun h1 h2 => ?_, fun h1 => ?_, fun heq => ?_, fun heq => ?_,
    fun h1 h2 h3 => ?_⟩
  · refine ⟨"Normal IO can not be zero-sized.", ?_⟩
    simp only [LogPackHeader.addNormalIo, hcap]
    rw [if_neg (by omega), if_neg (by omega)]
    simp
  · refine ⟨"Discard IO can not be zero-sized.", ?_⟩
    simp only [LogPackHeader.addDiscardIo]
    rw [if_neg (by omega)]
    simp
  · by_contra hcon
    push_neg at hcon
    obtain ⟨hc1, hc2⟩ := hcon
    simp only [LogPackHeader.addNormalIo, hcap] at heq
    rw [if_neg (by omega), if_neg (by omega)] at heq
    simp at heq
  · by_contra hcon
    simp only [LogPackHeader.addDiscardIo] at heq
    rw [if_neg (by omega)] at heq
    simp at heq
  · refine ⟨{ h with
        records := h.records ++
          [{ isExist := true, isPadding := true, offset := 0, io_size := 0,
             lsid_local := h.totalIoSize + 1,
             lsid := h.logpackLsid + (h.totalIoSize + 1), checksum := 0 }],
        totalIoSize := h.totalIoSize + capacity_pb h.pbs 0 }, ?_⟩
    simp only [LogPackHeader.addPadding, hcap]
    rw [if_neg (by omega), if_neg (by omega), if_neg (by omega)]
    simp [n_lb_in_pb]

/-- C10 witness: the zero-size behavior on a concrete empty 512-byte pack. -/
theorem logPackHeader_add_zero_size_witness :
    ((LogPackHeader.mk 512 0 0 0 []).nRecords <
      max_n_log_record_in_sector 512) ∧
    ((LogPackHeader.mk 512 0 0 0 []).totalIoSize ≤
      MAX_TOTAL_IO_SIZE_IN_LOGPACK_HEADER) ∧
    (∃ msg, (LogPackHeader.mk 512 0 0 0 []).addNormalIo 7 0 = .error msg) ∧
    (∃ msg, (LogPackHeader.mk 512 0 0 0 []).addDiscardIo 7 0 = .error msg) ∧
    (∃ h', (LogPackHeader.mk 512 0 0 0 []).addPadding 0 = .ok (some h')) := by
  have h := logPackHeader_add_zero_size (LogPackHeader.mk 512 0 0 0 []) 7
  exact ⟨by decide, by decide, h.1 (by decide) (by decide),
    h.2.1 (by decide), h.2.2.2.2 (by decide) (by decide) (by decide)⟩

/-- The `uint64_t(-1)` sentinel `Converter::convert` uses for "no wlog file
processed yet". -/
def U64_MAX : Nat := 2 ^ 64 - 1

/-- Error kinds of `Converter::convertWlog` header validation. -/
inductive ConvErr where
  | lsidMismatch
  | uuidMismatch
deriving DecidableEq

/-- A wlog file header as seen by `Converter::convertWlog`: begin/end LSIDs
and the device UUID bytes. -/
structure WlogFileHeader where
  beginLsid : Nat
  endLsid : Nat
  uuid : List Nat
deriving DecidableEq

/-- The header-validation and state-update portion of
`Converter::convertWlog` (`src/walb_diff_converter.hpp`): `lsid` and
`diffUuid` are the converter state; on the first file (`lsid = U64_MAX`) the
output UUID and starting lsid are initialized from the file header, on later
files `begin_lsid` must equal the previous end lsid (else lsid mismatch) and
the UUID must match the first file's (else uuid mismatch).  The returned
lsid is the file's end lsid, as set after the record loop. -/
def Converter.checkWlogHeader (lsid : Nat) (diffUuid : List Nat)
    (wh : WlogFileHeader) : Except ConvErr (Nat × List Nat) :=
  if lsid = U64_MAX then
    .ok (wh.endLsid, wh.uuid)
  else if lsid ≠ wh.beginLsid then .error .lsidMismatch
  else if diffUuid ≠ wh.uuid then .error .uuidMismatch
  else .ok (wh.endLsid, diffUuid)

/-- C9: concatenated wlog files are accepted only when each later file
starts at the previous end lsid and carries the first file's UUID; the first
file initializes the output UUID and the lsid chain. -/
theorem convertWlog_header_checks (lsid : Nat) (uuid : List Nat)
    (wh : WlogFileHeader) :
    (lsid = U64_MAX →
      Converter.checkWlogHeader lsid uuid wh = .ok (wh.endLsid, wh.uuid)) ∧
    (lsid ≠ U64_MAX → lsid ≠ wh.beginLsid →
      Converter.checkWlogHeader lsid uuid wh = .error .lsidMismatch) ∧
    (lsid ≠ U64_MAX → lsid = wh.beginLsid → uuid ≠ wh.uuid →
      Converter.checkWlogHeader lsid uuid wh = .error .uuidMismatch) ∧
    (lsid ≠ U64_MAX → lsid = wh.beginLsid → uuid = wh.uuid →
      Converter.checkWlogHeader lsid uuid wh = .ok (wh.endLsid, uuid)) := by
  refine ⟨fun h1 => ?_, fun h1 h2 => ?_, fun h1 h2 h3 => ?_, fun h1 h2 h3 => ?_⟩
  · simp [Converter.checkWlogHeader, h1]
  · simp [Converter.checkWlogHeader, h1, h2]
  · subst h2
    simp [Converter.checkWlogHeader, h1, h3]
  · subst h2 h3
    simp [Converter.checkWlogHeader, h1]

/-- C9 witness: the checks evaluated on concrete headers (a matching
continuation, an lsid mismatch, and a uuid mismatch). -/
theorem convertWlog_header_checks_witness :
    ((100 : Nat) ≠ U64_MAX) ∧
    (Converter.checkWlogHeader 100 [1, 2] (WlogFileHeader.mk 100 200 [1, 2]) =
      .ok (200, [1, 2])) ∧
    (Converter.checkWlogHeader 100 [1, 2] (WlogFileHeader.mk 150 200 [1, 2]) =
      .error .lsidMismatch) ∧
    (Converter.checkWlogHeader 100 [1, 2] (WlogFileHeader.mk 100 200 [3, 4]) =
      .error .uuidMismatch) :=
  ⟨by decide,
    (convertWlog_header_checks 100 [1, 2] (WlogFileHeader.mk 100 200 [1, 2])).2.2.2
      (by decide) rfl rfl,
    (convertWlog_header_checks 100 [1, 2] (WlogFileHeader.mk 150 200 [1, 2])).2.1
      (by decide) (by decide),
    (convertWlog_header_checks 100 [1, 2] (WlogFileHeader.mk 100 200 [3, 4])).2.2.1
      (by decide) rfl (by decide)⟩

/-- A payload block of a redo `Io`: the allocation's start address (standing
in for the `AlignedArray` data pointer compared by `Io::canMerge`) and the
block's bytes. -/
structure RBlock where
  addr : Nat
  bytes : List Nat
deriving DecidableEq, Inhabited

/-- The redo engine's `Io` object (`binsrc/wlog-redo.cpp`): target byte
offset and size, submission / completion / overwrite state, the owned
payload blocks and the overlap counter (`aio_key` and `sequence_id` are
used only by the aio facility and debug prints and are not modelled). -/
structure RIo where
  offset : Nat
  size : Nat
  isSubmitted : Bool := false
  isCompleted : Bool := false
  isOverwritten : Bool := false
  blocks : List RBlock := []
  nOverlapped : Nat := 0
deriving DecidableEq, Inhabited

/-- `Io::overwritten()`: set the overwrite flag once; when the IO has not
been submitted yet its payload blocks are released. -/
def RIo.overwritten (io : RIo) : RIo :=
  if !io.isOverwritten then
    { io with
      isOverwritten := true
      blocks := if !io.isSubmitted then [] else io.blocks }
  else io

/-- `Io::canMerge(rhs)`: both IOs must have payload blocks, the target
ranges must be adjacent, and the payload buffers must be contiguous in
memory (front-buffer pointer plus size reaches the other front buffer). -/
def RIo.canMerge (io rhs : RIo) : Bool :=
  if io.blocks.isEmpty || rhs.blocks.isEmpty then false
  else if io.offset + io.size != rhs.offset then false
  else (io.blocks.headD default).addr + io.size ==
    (rhs.blocks.headD default).addr

/-- `Io::tryMerge(rhs)`: on success the size is extended by `rhs`'s size and
`rhs`'s payload blocks are moved to the back of this IO's deque. -/
def RIo.tryMerge (io rhs : RIo) : Option RIo :=
  if io.canMerge rhs then
    some { io with size := io.size + rhs.size, blocks := io.blocks ++ rhs.blocks }
  else none

/-- `Io::isOverlapped(rhs)`: the byte ranges intersect. -/
def RIo.isOverlapped (io rhs : RIo) : Bool :=
  decide (io.offset < rhs.offset + rhs.size ∧ rhs.offset < io.offset + io.size)

/-- `Io::isOverwrittenBy(rhs)`: `rhs`'s range fully covers this IO's. -/
def RIo.isOverwrittenBy (io rhs : RIo) : Bool :=
  decide (rhs.offset ≤ io.offset ∧
    io.offset + io.size ≤ rhs.offset + rhs.size)

/-- `IoQueue::maxIoSize_` = 1 MiB. -/
def IoQueue.maxIoSize : Nat := 1024 * 1024

/-- `IoQueue::tryMerge(io0, io1)`: refuse when the combined size exceeds
1 MiB, otherwise defer to `Io::tryMerge`. -/
def IoQueue.tryMerge (io0 io1 : RIo) : Option RIo :=
  if IoQueue.maxIoSize < io0.size + io1.size then none
  else io0.tryMerge io1

/-- `IoQueue::add(iop)`: push, or coalesce into the last queued IO. -/
def IoQueue.add (q : List RIo) (iop : RIo) : List RIo :=
  match q.getLast? with
  | none => [iop]
  | some back =>
    match IoQueue.tryMerge back iop with
    | some m => q.dropLast ++ [m]
    | none => q ++ [iop]

/-- C7: two redo IOs are coalesced only when their device ranges are
adjacent, their payload buffers are contiguous in memory, and the combined
size stays within 1 MiB; a successful merge extends the previous IO's size
by the next IO's size and moves the payload blocks across. -/
theorem ioQueue_tryMerge_conditions (io0 io1 m : RIo)
    (h : IoQueue.tryMerge io0 io1 = some m) :
    io0.offset + io0.size = io1.offset ∧
    (io0.blocks.headD default).addr + io0.size =
      (io1.blocks.headD default).addr ∧
    io0.size + io1.size ≤ IoQueue.maxIoSize ∧
    io0.blocks ≠ [] ∧ io1.blocks ≠ [] ∧
    m.size = io0.size + io1.size ∧
    m.blocks = io0.blocks ++ io1.blocks ∧
    m.offset = io0.offset := by
  by_cases h1 : IoQueue.maxIoSize < io0.size + io1.size
  · simp [IoQueue.tryMerge, h1] at h
  · simp only [IoQueue.tryMerge, if_neg h1, RIo.tryMerge] at h
    by_cases hc : io0.canMerge io1 = true
    · rw [hc] at h
      simp only [if_true, Option.some.injEq] at h
      subst h
      simp only [RIo.canMerge] at hc
      by_cases he : (io0.blocks.isEmpty || io1.blocks.isEmpty) = true
      · rw [if_pos he] at hc
        exact absurd hc (by simp)
      · rw [if_neg he] at hc
        by_cases hb : (io0.offset + io0.size != io1.offset) = true
        · rw [if_pos hb] at hc
          exact absurd hc (by simp)
        · rw [if_neg hb] at hc
          simp only [bne_iff_ne, ne_eq, not_not] at hb
          simp only [beq_iff_eq] at hc
          simp only [Bool.or_eq_true, not_or, List.isEmpty_eq_true] at he
          exact ⟨hb, hc, by omega, he.1, he.2, rfl, rfl, rfl⟩
    · simp [hc] at h

/-- C7 witness: a concrete pair of adjacent 512-byte IOs with contiguous
buffers merges into one 1024-byte IO. -/
theorem ioQueue_tryMerge_conditions_witness :
    (IoQueue.tryMerge (RIo.mk 0 512 false false false [RBlock.mk 4096 []] 0)
        (RIo.mk 512 512 false false false [RBlock.mk 4608 []] 0) =
      some (RIo.mk 0 1024 false false false
        [RBlock.mk 4096 [], RBlock.mk 4608 []] 0)) ∧
    ((RIo.mk 0 512 false false false [RBlock.mk 4096 []] 0).offset + 512 =
      (RIo.mk 512 512 false false false [RBlock.mk 4608 []] 0).offset) :=
  ⟨by decide,
    (ioQueue_tryMerge_conditions
      (RIo.mk 0 512 false false false [RBlock.mk 4096 []] 0)
      (RIo.mk 512 512 false false false [RBlock.mk 4608 []] 0)
      (RIo.mk 0 1024 false false false
        [RBlock.mk 4096 [], RBlock.mk 4608 []] 0) (by decide)).1⟩

/-- `OverlappedData` (`binsrc/wlog-redo.cpp`): the ordered multimap of live
IOs keyed by `(offset, pointer)`, plus the largest live IO size seen.  The
`std::set` scan from `lower_bound((key0, nullptr))` while keys are `< key1`
visits exactly the members whose offset lies in `[key0, key1)`; it is
embedded as a filter / map guarded by that window predicate, and insertion
keeps the new element at the back (the claims checked here do not depend on
the key order of the container). -/
structure OverlappedData where
  ioSet : List RIo
  maxSize : Nat := 0
deriving DecidableEq, Inhabited

/-- The window predicate of the bounded scan in `OverlappedData::ins` /
`del`: `key0 = max(offset - maxSize, 0) ≤ p.offset < offset + size`. -/
def OverlappedData.inWindow (iop : RIo) (maxSize : Nat) (p : RIo) : Bool :=
  let key0 := if maxSize < iop.offset then iop.offset - maxSize else 0
  let key1 := iop.offset + iop.size
  decide (key0 ≤ p.offset ∧ p.offset < key1)

/-- `OverlappedData::ins(iop)`: count the live IOs overlapping `iop` within
the scan window into `iop.nOverlapped`, mark every one fully covered by
`iop` as overwritten, insert `iop`, and raise `maxSize`.  Returns the
updated `iop` together with the updated container. -/
def OverlappedData.ins (st : OverlappedData) (iop : RIo) :
    RIo × OverlappedData :=
  let count := (st.ioSet.filter (fun p =>
      OverlappedData.inWindow iop st.maxSize p && p.isOverlapped iop)).length
  let newSet := st.ioSet.map (fun p =>
      if OverlappedData.inWindow iop st.maxSize p && p.isOverlapped iop &&
          p.isOverwrittenBy iop then p.overwritten else p)
  let iop' := { iop with nOverlapped := count }
  (iop', { ioSet := newSet ++ [iop'], maxSize := max st.maxSize iop.size })

/-- Under the container invariant `maxSize` bounds every live size, the scan
window covers every IO overlapping `iop`. -/
theorem OverlappedData.inWindow_of_overlapped (iop : RIo) (maxSize : Nat)
    (p : RIo) (hsz : p.size ≤ maxSize) (hov : p.isOverlapped iop = true) :
    OverlappedData.inWindow iop maxSize p = true := by
  have h := of_decide_eq_true hov
  simp only [OverlappedData.inWindow, decide_eq_true_eq]
  constructor
  · split_ifs with hk <;> omega
  · omega

/-- C2: inserting an IO into the overlap map sets its `n_overlapped` counter
to exactly the number of live IOs intersecting its byte range, and marks
every live IO fully covered by the newcomer as overwritten, releasing its
payload blocks when it has not been submitted yet.  `hmax` and `hpos` are
the container invariants (`maxSize` bounds every live size; live IOs are
nonempty), `hclean` the IO invariant that an already-overwritten unsubmitted
IO has released its blocks. -/
theorem overlappedData_ins_spec (st : OverlappedData) (iop : RIo)
    (hmax : ∀ p ∈ st.ioSet, p.size ≤ st.maxSize)
    (hpos : ∀ p ∈ st.ioSet, 0 < p.size)
    (hclean : ∀ p ∈ st.ioSet,
      p.isOverwritten = true → p.isSubmitted = false → p.blocks = []) :
    ((st.ins iop).1.nOverlapped =
      (st.ioSet.filter (fun p => p.isOverlapped iop)).length) ∧
    ((st.ins iop).2.ioSet =
      st.ioSet.map (fun p =>
        if p.isOverlapped iop && p.isOverwrittenBy iop then p.overwritten
        else p) ++ [(st.ins iop).1]) ∧
    (∀ p ∈ st.ioSet, p.isOverwrittenBy iop = true →
      ((if p.isOverlapped iop && p.isOverwrittenBy iop then p.overwritten
        else p).isOverwritten = true ∧
       (p.isSubmitted = false →
        (if p.isOverlapped iop && p.isOverwrittenBy iop then p.overwritten
         else p).blocks = []))) := by
  have hwin : ∀ p ∈ st.ioSet,
      (OverlappedData.inWindow iop st.maxSize p && p.isOverlapped iop) =
        p.isOverlapped iop := by
    intro p hp
    cases hov : p.isOverlapped iop with
    | false => simp
    | true =>
      simp [OverlappedData.inWindow_of_overlapped iop st.maxSize p
        (hmax p hp) hov]
  have hcov_ov : ∀ p ∈ st.ioSet, p.isOverwrittenBy iop = true →
      p.isOverlapped iop = true := by
    intro p hp hcov
    have h := of_decide_eq_true hcov
    have hps := hpos p hp
    simp only [RIo.isOverlapped, decide_eq_true_eq]
    omega
  refine ⟨?_, ?_, ?_⟩
  · simp only [OverlappedData.ins]
    exact congrArg List.length (List.filter_congr hwin)
  · simp only [OverlappedData.ins]
    refine congrArg (· ++ _) (List.map_congr_left ?_)
    intro p hp
    rw [Bool.and_assoc] at *
    by_cases hov : p.isOverlapped iop = true
    · simp [OverlappedData.inWindow_of_overlapped iop st.maxSize p
        (hmax p hp) hov]
    · have : p.isOverwrittenBy iop = true → False := fun hcov =>
        hov (hcov_ov p hp hcov)
      cases hcov : p.isOverwrittenBy iop
      · simp [Bool.eq_false_iff.mpr hov, hcov]
      · exact absurd hcov this
  · intro p hp hcov
    have hov := hcov_ov p hp hcov
    simp only [hov, hcov, Bool.and_self, if_pos, RIo.overwritten]
    constructor
    · cases how : p.isOverwritten <;> simp [how]
    · intro hsub
      cases how : p.isOverwritten with
      | false => simp [how, hsub]
      | true => simpa [how] using hclean p hp how hsub

/-- C2 witness: inserting a covering IO over a map holding two smaller live
IOs counts both overlaps and marks both overwritten. -/
theorem overlappedData_ins_spec_witness :
    (∀ p ∈ (OverlappedData.mk
        [RIo.mk 0 512 false false false [RBlock.mk 10 []] 0,
         RIo.mk 1024 512 false false false [RBlock.mk 20 []] 0] 512).ioSet,
      p.size ≤ 512) ∧
    (((OverlappedData.mk
        [RIo.mk 0 512 false false false [RBlock.mk 10 []] 0,
         RIo.mk 1024 512 false false false [RBlock.mk 20 []] 0] 512).ins
        (RIo.mk 0 2048 false false false [RBlock.mk 30 []] 0)).1.nOverlapped =
      ((OverlappedData.mk
        [RIo.mk 0 512 false false false [RBlock.mk 10 []] 0,
         RIo.mk 1024 512 false false false [RBlock.mk 20 []] 0] 512).ioSet.filter
          (fun p => p.isOverlapped
            (RIo.mk 0 2048 false false false [RBlock.mk 30 []] 0))).length) ∧
    (((OverlappedData.mk
        [RIo.mk 0 512 false false false [RBlock.mk 10 []] 0,
         RIo.mk 1024 512 false false false [RBlock.mk 20 []] 0] 512).ins
        (RIo.mk 0 2048 false false false [RBlock.mk 30 []] 0)).1.nOverlapped = 2) :=
  ⟨by decide,
    (overlappedData_ins_spec _ _ (by decide) (by decide) (by decide)).1,
    by decide⟩

/-- `DiffMerger::shouldMerge(rec, minAddr)` (`src/walb_diff_merge.hpp`): a
front record may be pulled into the scratch diff map when its address is
inside the search window and its end address does not pass the minimum
front address of the open streams. -/
def DiffMerger.shouldMerge (doneAddr searchLen : Nat) (rec : DiffRecord)
    (minAddr : Nat) : Bool :=
  decide (rec.io_address < doneAddr + searchLen) &&
    decide (rec.endIoAddress ≤ minAddr)

/-- Modelled from the spec: `DiffMerger::getMinimumAddr` (declared in
`src/walb_diff_merge.hpp`, body not under `src/`); §4.E step (a): the
minimum front address over the open streams, `u64::MAX` when all are
exhausted. -/
def DiffMerger.getMinimumAddr (streams : List (List DiffRecord)) : Nat :=
  streams.foldl
    (fun m s => match s with | [] => m | r :: _ => min m r.io_address) U64_MAX

/-- Modelled from the spec: one pass of `DiffMerger::tryMoveToDiffMemory`
(declared in `src/walb_diff_merge.hpp`, body not under `src/`); §4.E step
(b): visit the open streams in oldest-first order (list order, index `i`
tags each stream), and from each stream pop records while the front
satisfies the merge condition `p`; the first component is the sequence of
`(stream index, record)` insertions into the scratch map in insertion
order, the second the remaining streams. -/
def DiffMerger.mergePassGo (p : DiffRecord → Bool) :
    Nat → List (List DiffRecord) →
      List (Nat × DiffRecord) × List (List DiffRecord)
  | _, [] => ([], [])
  | i, s :: rest =>
    let tl := DiffMerger.mergePassGo p (i + 1) rest
    ((s.takeWhile p).map (fun r => (i, r)) ++ tl.1, s.dropWhile p :: tl.2)

/-- Modelled from the spec: `DiffMerger::tryMoveToDiffMemory` (§4.E step
(b)), with the merge condition instantiated to the source's
`shouldMerge` at the minimum front address of the streams. -/
def DiffMerger.tryMoveToDiffMemory (doneAddr searchLen : Nat)
    (streams : List (List DiffRecord)) :
    List (Nat × DiffRecord) × List (List DiffRecord) :=
  DiffMerger.mergePassGo
    (fun r => DiffMerger.shouldMerge doneAddr searchLen r
      (DiffMerger.getMinimumAddr streams)) 0 streams

/-- `r` covers the logical block address `addr`. -/
def coversAddr (r : DiffRecord) (addr : Nat) : Bool :=
  decide (r.io_address ≤ addr ∧ addr < r.endIoAddress)

/-- Modelled from the spec: the newcomer-wins readback of the in-memory
diff map (§4.D; `walb_diff_mem.hpp` is not under `src/`): reading an
address yields the record inserted last among those covering it. -/
def lastCover (l : List (Nat × DiffRecord)) (addr : Nat) :
    Option (Nat × DiffRecord) :=
  l.foldl (fun acc e => if coversAddr e.2 addr then some e else acc) none

/-- A diff stream is address-ordered and non-overlapping: every record ends
at or before the next record's address. -/
def addrOrdered (s : List DiffRecord) : Prop :=
  s.Chain' (fun a b => a.endIoAddress ≤ b.io_address)

/-- In a chain along `R`, once `p` fails it fails for the rest. -/
theorem all_false_of_chain {α : Type} (p : α → Bool) (R : α → α → Prop)
    (hstep : ∀ a b, R a b → p a = false → p b = false) :
    ∀ (l : List α) (a : α), List.Chain' R (a :: l) → p a = false →
      ∀ x ∈ l, p x = false := by
  intro l
  induction l with
  | nil => simp
  | cons b l ih =>
    intro a hch hpa x hx
    have hr : R a b := (List.chain'_cons.mp hch).1
    have hpb := hstep a b hr hpa
    rcases List.mem_cons.mp hx with hx | hx
    · exact hx ▸ hpb
    · exact ih b (List.chain'_cons.mp hch).2 hpb x hx

/-- In a chain along `R` whose failures propagate forward, `takeWhile` is
`filter` and `dropWhile` is the complementary `filter`. -/
theorem takeWhile_dropWhile_eq_filter_of_chain {α : Type} (p : α → Bool)
    (R : α → α → Prop)
    (hstep : ∀ a b, R a b → p a = false → p b = false) :
    ∀ l : List α, List.Chain' R l →
      l.takeWhile p = l.filter p ∧
        l.dropWhile p = l.filter (fun x => !p x) := by
  intro l
  induction l with
  | nil => simp
  | cons a l ih =>
    intro hch
    have htl := ih hch.tail
    cases hpa : p a with
    | true =>
      simp only [List.takeWhile_cons, List.dropWhile_cons, List.filter_cons,
        hpa, if_true, Bool.not_true]
      exact ⟨by rw [htl.1], by simpa using htl.2⟩
    | false =>
      have hall : ∀ x ∈ l, p x = false :=
        all_false_of_chain p R hstep l a hch hpa
      have hfl : l.filter p = [] := by
        rw [List.filter_eq_nil_iff]
        intro x hx
        simp [hall x hx]
      have hfl' : l.filter (fun x => !p x) = l := by
        rw [List.filter_eq_self]
        intro x hx
        simp [hall x hx]
      simp [List.takeWhile_cons, List.dropWhile_cons, List.filter_cons, hpa,
        hfl, hfl']

/-- The pass visits streams oldest-first: the insertion sequence is the
concatenation, over the streams enumerated from `i`, of each stream's
popped prefix tagged with its stream index; the remaining streams keep
their unpopped suffixes. -/
theorem DiffMerger.mergePassGo_eq (p : DiffRecord → Bool) :
    ∀ (ss : List (List DiffRecord)) (i : Nat),
      (DiffMerger.mergePassGo p i ss).1 =
        ((List.enumFrom i ss).map
          (fun e => (e.2.takeWhile p).map (fun r => (e.1, r)))).flatten ∧
      (DiffMerger.mergePassGo p i ss).2 = ss.map (·.dropWhile p) := by
  intro ss
  induction ss with
  | nil => intro i; simp [DiffMerger.mergePassGo]
  | cons s rest ih =>
    intro i
    simp only [DiffMerger.mergePassGo, List.enumFrom, List.map_cons,
      List.flatten_cons]
    exact ⟨by rw [(ih (i + 1)).1], by rw [(ih (i + 1)).2]⟩

/-- Stream tags produced by the pass are at least the starting index and
ascend along the insertion sequence. -/
theorem DiffMerger.mergePassGo_tags (p : DiffRecord → Bool) :
    ∀ (ss : List (List DiffRecord)) (i : Nat),
      (∀ e ∈ (DiffMerger.mergePassGo p i ss).1, i ≤ e.1) ∧
      (DiffMerger.mergePassGo p i ss).1.Pairwise (fun a b => a.1 ≤ b.1) := by
  intro ss
  induction ss with
  | nil => intro i; simp [DiffMerger.mergePassGo]
  | cons s rest ih =>
    intro i
    have ihtag := (ih (i + 1)).1
    have ihpw := (ih (i + 1)).2
    constructor
    · intro e he
      simp only [DiffMerger.mergePassGo, List.mem_append, List.mem_map] at he
      rcases he with ⟨r, _, rfl⟩ | he
      · exact le_refl i
      · exact le_trans (by omega) (ihtag e he)
    · simp only [DiffMerger.mergePassGo]
      rw [List.pairwise_append]
      refine ⟨?_, ihpw, ?_⟩
      · rw [List.pairwise_map]
        exact List.pairwise_of_forall (fun _ _ => le_refl i)
      · intro a ha b hb
        simp only [List.mem_map] at ha
        rcases ha with ⟨r, _, rfl⟩
        exact le_trans (by omega) (ihtag b hb)

/-- The last covering record of `l ++ [x]` is `x` when `x` covers, else
that of `l`. -/
theorem lastCover_append_singleton (l : List (Nat × DiffRecord))
    (x : Nat × DiffRecord) (addr : Nat) :
    lastCover (l ++ [x]) addr =
      if coversAddr x.2 addr then some x else lastCover l addr := by
  simp [lastCover, List.foldl_append]

/-- In an insertion sequence with ascending tags, the winning (= last)
covering record at any address has a tag at least that of any covering
member: later streams win on overlap. -/
theorem lastCover_tag_le (l : List (Nat × DiffRecord))
    (hpw : l.Pairwise (fun a b => a.1 ≤ b.1)) (e : Nat × DiffRecord)
    (he : e ∈ l) (addr : Nat) (hcov : coversAddr e.2 addr = true) :
    ∃ e', lastCover l addr = some e' ∧ e.1 ≤ e'.1 ∧
      coversAddr e'.2 addr = true := by
  induction l using List.reverseRecOn with
  | nil => simp at he
  | append_singleton l x ih =>
    rw [lastCover_append_singleton]
    cases hcx : coversAddr x.2 addr with
    | true =>
      refine ⟨x, by simp, ?_, hcx⟩
      rcases List.mem_append.mp he with he' | he'
      · exact (List.pairwise_append.mp hpw).2.2 e he' x (by simp)
      · simp only [List.mem_singleton] at he'
        exact he' ▸ le_refl _
    | false =>
      have he' : e ∈ l := by
        rcases List.mem_append.mp he with h | h
        · exact h
        · simp only [List.mem_singleton] at h
          rw [h] at hcov
          rw [hcov] at hcx
          exact absurd hcx (by simp)
      rw [if_neg (by simp [hcx])]
      exact ih (List.pairwise_append.mp hpw).1 he'

/-- C3: in one pull pass of the merger, a record is popped from an open
stream and inserted into the scratch diff map exactly when `shouldMerge`
holds for it — its address lies below `doneAddr + searchLen` and its end
address is at most the minimum front address over the open streams — and
the remaining streams keep exactly the records failing that condition;
streams are visited oldest-first, so insertion order carries ascending
stream indices and the newcomer-wins readback of the scratch map at any
address is a record from a stream at least as new as any covering record. -/
theorem diffMerger_merge_pass (doneAddr searchLen : Nat)
    (streams : List (List DiffRecord))
    (hord : ∀ s ∈ streams, addrOrdered s) :
    ((DiffMerger.tryMoveToDiffMemory doneAddr searchLen streams).1 =
      ((streams.enum).map (fun e =>
        (e.2.filter (fun r => DiffMerger.shouldMerge doneAddr searchLen r
          (DiffMerger.getMinimumAddr streams))).map
            (fun r => (e.1, r)))).flatten) ∧
    ((DiffMerger.tryMoveToDiffMemory doneAddr searchLen streams).2 =
      streams.map (fun s => s.filter (fun r =>
        !(DiffMerger.shouldMerge doneAddr searchLen r
          (DiffMerger.getMinimumAddr streams))))) ∧
    (∀ e ∈ (DiffMerger.tryMoveToDiffMemory doneAddr searchLen streams).1,
      ∀ addr, coversAddr e.2 addr = true →
        ∃ e', lastCover
            (DiffMerger.tryMoveToDiffMemory doneAddr searchLen streams).1 addr
          = some e' ∧ e.1 ≤ e'.1 ∧ coversAddr e'.2 addr = true) := by
  have hstep : ∀ a b : DiffRecord, a.endIoAddress ≤ b.io_address →
      DiffMerger.shouldMerge doneAddr searchLen a
        (DiffMerger.getMinimumAddr streams) = false →
      DiffMerger.shouldMerge doneAddr searchLen b
        (DiffMerger.getMinimumAddr streams) = false := by
    intro a b hR hpa
    have hR' : a.io_address + a.io_blocks ≤ b.io_address := hR
    cases hpb : DiffMerger.shouldMerge doneAddr searchLen b
        (DiffMerger.getMinimumAddr streams) with
    | false => rfl
    | true =>
      exfalso
      have hb := hpb
      simp only [DiffMerger.shouldMerge, Bool.and_eq_true, decide_eq_true_eq,
        DiffRecord.endIoAddress] at hb
      have ha : DiffMerger.shouldMerge doneAddr searchLen a
          (DiffMerger.getMinimumAddr streams) = true := by
        simp only [DiffMerger.shouldMerge, Bool.and_eq_true, decide_eq_true_eq,
          DiffRecord.endIoAddress]
        omega
      rw [ha] at hpa
      exact Bool.noConfusion hpa
  have hTW := fun s hs =>
    takeWhile_dropWhile_eq_filter_of_chain
      (fun r => DiffMerger.shouldMerge doneAddr searchLen r
        (DiffMerger.getMinimumAddr streams))
      (fun a b => a.endIoAddress ≤ b.io_address) hstep s (hord s hs)
  refine ⟨?_, ?_, ?_⟩
  · rw [DiffMerger.tryMoveToDiffMemory,
      (DiffMerger.mergePassGo_eq _ streams 0).1]
    show ((List.enumFrom 0 streams).map _).flatten = _
    rw [show streams.enum = List.enumFrom 0 streams from rfl]
    congr 1
    refine List.map_congr_left ?_
    intro e he
    obtain ⟨-, -, hget⟩ := List.mem_enumFrom he
    have hmem : e.2 ∈ streams := hget ▸ List.getElem_mem _
    rw [(hTW e.2 hmem).1]
  · rw [DiffMerger.tryMoveToDiffMemory,
      (DiffMerger.mergePassGo_eq _ streams 0).2]
    refine List.map_congr_left ?_
    intro s hs
    rw [(hTW s hs).2]
  · intro e he addr hcov
    exact lastCover_tag_le _
      (DiffMerger.mergePassGo_tags _ streams 0).2 e he addr hcov

/-- C3 witness: a two-stream pass (`doneAddr = 0`, `searchLen = 2048`).
Zero-length front records at the minimum address are popped from both
streams in oldest-first order, and the newer stream's trailing record,
which ends past the minimum front address, stays in its stream. -/
theorem diffMerger_merge_pass_witness :
    (∀ s ∈ [[({ io_address := 5 } : DiffRecord)],
        [({ io_address := 5 } : DiffRecord),
         ({ io_address := 10, io_blocks := 4 } : DiffRecord)]], addrOrdered s) ∧
    ((DiffMerger.tryMoveToDiffMemory 0 2048
        [[({ io_address := 5 } : DiffRecord)],
         [({ io_address := 5 } : DiffRecord),
          ({ io_address := 10, io_blocks := 4 } : DiffRecord)]]).1 =
      (([[({ io_address := 5 } : DiffRecord)],
         [({ io_address := 5 } : DiffRecord),
          ({ io_address := 10, io_blocks := 4 } : DiffRecord)]].enum).map
        (fun e => (e.2.filter (fun r =>
            DiffMerger.shouldMerge 0 2048 r (DiffMerger.getMinimumAddr
              [[({ io_address := 5 } : DiffRecord)],
               [({ io_address := 5 } : DiffRecord),
                ({ io_address := 10, io_blocks := 4 } : DiffRecord)]]))).map
          (fun r => (e.1, r)))).flatten) := by
  have hord : ∀ s ∈ [[({ io_address := 5 } : DiffRecord)],
      [({ io_address := 5 } : DiffRecord),
       ({ io_address := 10, io_blocks := 4 } : DiffRecord)]], addrOrdered s := by
    intro s hs
    rcases List.mem_cons.mp hs with rfl | hs
    · simp [addrOrdered]
    · rcases List.mem_cons.mp hs with rfl | hs
      · simp [addrOrdered, List.chain'_cons, DiffRecord.endIoAddress]
      · simp at hs
  exact ⟨hord, (diffMerger_merge_pass 0 2048 _ hord).1⟩

/-- One entry of the submission log: the IO (by creation id) whose buffer
was handed to `aio_.prepareWrite(offset, size, ptr)` and submitted to the
device, with the bytes the device receives (the first `size` bytes of the
IO's contiguous payload blocks). -/
structure WriteEntry where
  ioId : Nat
  offset : Nat
  size : Nat
  bytes : List Nat
deriving DecidableEq

/-- The state of `WalbLogApplyer` (`binsrc/wlog-redo.cpp`).  `Io` objects
are identified by creation order (`IoPtr` identity); `ios` maps each id to
the current contents of its `Io` object and `nIos` is the number created so
far.  The queues hold ids.  `writeLog` records every `prepareWrite` issued
by `submitIos`, `popLog` records each `waitForAnIoCompletion` pop together
with whether it was counted in `nWritten` (`true`) or `nOverwritten`
(`false`). -/
structure RedoState where
  queueSize : Nat
  blockSize : Nat
  deviceSize : Nat
  ios : Nat → RIo := fun _ => default
  nIos : Nat := 0
  ioQ : List Nat := []
  readyIoQ : List Nat := []
  submitIoQ : List Nat := []
  olSet : List Nat := []
  olMaxSize : Nat := 0
  nPendingBlocks : Nat := 0
  writeLog : List WriteEntry := []
  popLog : List (Nat × Bool) := []
  nWritten : Nat := 0
  nOverwritten : Nat := 0
  nClipped : Nat := 0
  nDiscard : Nat := 0
  nPadding : Nat := 0

/-- The `Io` object with id `i`. -/
def RedoState.io (s : RedoState) (i : Nat) : RIo := s.ios i

/-- Overwrite the `Io` object with id `i`. -/
def RedoState.setIo (s : RedoState) (i : Nat) (x : RIo) : RedoState :=
  { s with ios := fun j => if j = i then x else s.ios j }

/-- `WalbLogApplyer::bytesToPb(bytes)` = `capacity_pb(blockSize, bytes/512)`. -/
def RedoState.bytesToPb (s : RedoState) (bytes : Nat) : Nat :=
  capacity_pb s.blockSize (bytes / LOGICAL_BLOCK_SIZE)

/-- The body of the scan loop of `OverlappedData::ins`: mark io `j`
overwritten when it lies in the window and is overlapped and fully covered
by `iop`. -/
def RedoState.olInsMark (iop : RIo) (ms : Nat) (acc : RedoState) (j : Nat) :
    RedoState :=
  if OverlappedData.inWindow iop ms (acc.io j) &&
      (acc.io j).isOverlapped iop && (acc.io j).isOverwrittenBy iop
  then acc.setIo j (acc.io j).overwritten else acc

/-- `OverlappedData::ins(iop)` on the applyer state (`olData_.ins`): count
the live IOs overlapping io `i` in the scan window into its `nOverlapped`,
mark the fully covered ones overwritten, insert `i` and raise `maxSize`. -/
def RedoState.olIns (s : RedoState) (i : Nat) : RedoState :=
  let iop := s.io i
  let count := (s.olSet.filter (fun j =>
      OverlappedData.inWindow iop s.olMaxSize (s.io j) &&
        (s.io j).isOverlapped iop)).length
  let s1 := s.olSet.foldl (RedoState.olInsMark iop s.olMaxSize) s
  let s2 := s1.setIo i { iop with nOverlapped := count }
  { s2 with olSet := s2.olSet ++ [i], olMaxSize := max s2.olMaxSize iop.size }

/-- The body of the scan loop of `OverlappedData::del`: decrement the
overlap counter of io `j` when it lies in the window and overlaps `iop`,
collecting it when the counter reaches 0. -/
def RedoState.olDelStep (iop : RIo) (ms : Nat) (acc : RedoState × List Nat)
    (j : Nat) : RedoState × List Nat :=
  let p := acc.1.io j
  if OverlappedData.inWindow iop ms p && p.isOverlapped iop then
    let p' := { p with nOverlapped := p.nOverlapped - 1 }
    (acc.1.setIo j p', if p'.nOverlapped = 0 then acc.2 ++ [j] else acc.2)
  else acc

/-- `OverlappedData::del(iop, ioQ)` on the applyer state: remove io `i`,
reset `maxSize` when empty, decrement `nOverlapped` of every IO overlapping
`i` in the scan window, and return (in scan order) those reaching 0. -/
def RedoState.olDel (s : RedoState) (i : Nat) : RedoState × List Nat :=
  let iop := s.io i
  let set1 := s.olSet.erase i
  let maxSize1 := if set1.isEmpty then 0 else s.olMaxSize
  set1.foldl (RedoState.olDelStep iop maxSize1)
    ({ s with olSet := set1, olMaxSize := maxSize1 }, [])

/-- The body of the drain loop of `submitIos`: skip an overwritten IO,
otherwise record its `prepareWrite` and mark it submitted. -/
def RedoState.submitOne (acc : RedoState) (i : Nat) : RedoState :=
  let iop := acc.io i
  if iop.isOverwritten then acc
  else
    let acc1 := acc.setIo i { iop with isSubmitted := true }
    { acc1 with writeLog := acc1.writeLog ++
        [⟨i, iop.offset, iop.size,
          ((iop.blocks.map (·.bytes)).flatten).take iop.size⟩] }

/-- `WalbLogApplyer::submitIos()`: drain `submitIoQ_`, skipping overwritten
IOs; each remaining IO is handed to `aio_.prepareWrite` (recorded in the
write log) and marked submitted. -/
def RedoState.submitIos (s : RedoState) : RedoState :=
  s.submitIoQ.foldl RedoState.submitOne { s with submitIoQ := [] }

/-- Insertion at the `std::lower_bound` position by ascending offset
(`scheduleIos`'s sorted insert into `submitIoQ_`). -/
def RedoState.insertSortedByOffset (s : RedoState) (i : Nat) :
    List Nat → List Nat
  | [] => [i]
  | j :: rest =>
    if (s.io j).offset < (s.io i).offset then
      j :: s.insertSortedByOffset i rest
    else i :: j :: rest

/-- The body of the drain loop of `scheduleIos`: skip an overwritten IO,
otherwise insert it into `submitIoQ_` sorted by offset and submit the batch
when the queue is full. -/
def RedoState.scheduleOne (acc : RedoState) (i : Nat) : RedoState :=
  if (acc.io i).isOverwritten then acc
  else
    let acc1 : RedoState := { acc with
      submitIoQ := acc.insertSortedByOffset i acc.submitIoQ }
    if acc1.queueSize ≤ acc1.submitIoQ.length then acc1.submitIos
    else acc1

/-- `WalbLogApplyer::scheduleIos()`: drain `readyIoQ_`, skipping overwritten
IOs, inserting each into `submitIoQ_` sorted by offset, and submitting the
batch whenever `submitIoQ_` reaches `queueSize_`. -/
def RedoState.scheduleIos (s : RedoState) : RedoState :=
  s.readyIoQ.foldl RedoState.scheduleOne { s with readyIoQ := [] }

/-- The tail loop of `waitForAnIoCompletion`: push a freed IO to the front
of `readyIoQ_` unless it has been overwritten. -/
def RedoState.promoteOne (acc : RedoState) (p : Nat) : RedoState :=
  if (acc.io p).isOverwritten then acc
  else { acc with readyIoQ := p :: acc.readyIoQ }

/-- `WalbLogApplyer::waitForAnIoCompletion()`: pop the oldest IO from
`ioQ_`; if it is neither submitted nor overwritten, flush
`readyIoQ_ → submitIoQ_ → device` first; count it in `nWritten` when
submitted (awaiting its aio completion), else in `nOverwritten`; release
its pending blocks, delete it from the overlap map, and push the IOs whose
`nOverlapped` dropped to 0 onto the front of `readyIoQ_`, skipping
overwritten ones. -/
def RedoState.popHead (s : RedoState) (rest : List Nat) : RedoState :=
  { s with ioQ := rest }

def RedoState.flushIfNeeded (s : RedoState) (i : Nat) : RedoState :=
  if !(s.io i).isSubmitted && !(s.io i).isOverwritten then
    s.scheduleIos.submitIos else s

def RedoState.countPop (s : RedoState) (i : Nat) : RedoState :=
  if (s.io i).isSubmitted then
    { s.setIo i { s.io i with isCompleted := true } with
      nWritten := s.nWritten + 1
      popLog := s.popLog ++ [(i, true)] }
  else
    { s with
      nOverwritten := s.nOverwritten + 1
      popLog := s.popLog ++ [(i, false)] }

def RedoState.releasePending (s : RedoState) (i : Nat) : RedoState :=
  { s with nPendingBlocks := s.nPendingBlocks - s.bytesToPb (s.io i).size }

def RedoState.delAndPromote (s : RedoState) (i : Nat) : RedoState :=
  let sd := s.olDel i
  sd.2.foldl RedoState.promoteOne sd.1

def RedoState.waitForBody (s : RedoState) (i : Nat) (rest : List Nat) :
    RedoState :=
  ((((s.popHead rest).flushIfNeeded i).countPop i).releasePending
    i).delAndPromote i

def RedoState.waitForAnIoCompletion (s : RedoState) : RedoState :=
  match s.ioQ with
  | [] => s
  | i :: rest => s.waitForBody i rest

/-- Repeated completion waits (the loop of
`WalbLogApplyer::waitForAllPendingIos`). -/
def RedoState.waitAll : Nat → RedoState → RedoState
  | 0, s => s
  | n + 1, s => RedoState.waitAll n s.waitForAnIoCompletion

/-- `WalbLogApplyer::waitForAllPendingIos()`: drain `ioQ_` by repeated
completion waits (each wait pops exactly one IO from `ioQ_`). -/
def RedoState.waitForAllPendingIos (s : RedoState) : RedoState :=
  RedoState.waitAll s.ioQ.length s

/-- The waiting loop at the head of `prepareIos`: while `ioQ_` is non-empty
and the new blocks would overflow the submission ring, wait for a
completion.  Fuel is the length of `ioQ_` (each wait pops one IO). -/
def RedoState.prepareWaitLoop : Nat → Nat → RedoState → RedoState
  | 0, _, s => s
  | fuel + 1, nBlocks, s =>
    if s.ioQ.isEmpty then s
    else if s.queueSize < s.nPendingBlocks + nBlocks then
      RedoState.prepareWaitLoop fuel nBlocks s.waitForAnIoCompletion
    else s

/-- The enqueue loop body of `prepareIos`: create the `Io` object (fresh
id), insert it into the overlap map, push it to `readyIoQ_` when nothing
overlaps it, and append it to `ioQ_`. -/
def RedoState.prepareOne (acc : RedoState) (iop : RIo) : RedoState :=
  let i := acc.nIos
  let acc1 : RedoState := { acc.setIo i iop with nIos := acc.nIos + 1 }
  let acc2 : RedoState := acc1.olIns i
  let acc3 : RedoState :=
    if (acc2.io i).nOverlapped = 0 then
      { acc2 with readyIoQ := acc2.readyIoQ ++ [i] }
    else acc2
  { acc3 with ioQ := acc3.ioQ ++ [i] }

/-- `WalbLogApplyer::prepareIos(ioQ, nBlocks)`: wait for room in the ring,
account the new blocks as pending, then for each new IO insert it into the
overlap map, push it to `readyIoQ_` when nothing overlaps it, and append it
to `ioQ_`. -/
def RedoState.prepareIos (s : RedoState) (newIos : List RIo) (nBlocks : Nat) :
    RedoState :=
  let s1 := RedoState.prepareWaitLoop s.ioQ.length nBlocks s
  let s2 := { s1 with nPendingBlocks := s1.nPendingBlocks + nBlocks }
  newIos.foldl RedoState.prepareOne s2

/-- The per-physical-block loop body of `redoNormalIo`: build the next
sub-IO, clip it when it would extend past the device size, otherwise
coalesce it into the staging queue, batching into `prepareIos` /
`scheduleIos` whenever `queueSize_/2` blocks have accumulated. -/
def RedoState.redoNormalStep (rec : LogRecord) (blockS : List RBlock)
    (st : RedoState × List RIo × Nat × Nat × Nat) (i : Nat) :
    RedoState × List RIo × Nat × Nat × Nat :=
  let (acc, tmpQ, nBlocks, off, remaining) := st
  let block := if rec.isDiscard then
      RBlock.mk 0 (List.replicate acc.blockSize 0)
    else blockS.getD i default
  let size := min acc.blockSize remaining
  let iop : RIo := { offset := off, size := size, blocks := [block] }
  let off' := off + size
  let remaining' := remaining - size
  if iop.offset + iop.size ≤ acc.deviceSize then
    let tmpQ' := IoQueue.add tmpQ iop
    let nBlocks' := nBlocks + 1
    let acc' := if rec.isDiscard then
        { acc with nDiscard := acc.nDiscard + 1 } else acc
    if acc'.queueSize / 2 ≤ nBlocks' then
      ((acc'.prepareIos tmpQ' nBlocks').scheduleIos, [], 0, off', remaining')
    else (acc', tmpQ', nBlocks', off', remaining')
  else
    let acc' := { acc with nClipped := acc.nClipped + 1 }
    if acc'.queueSize / 2 ≤ nBlocks then
      ((acc'.prepareIos tmpQ nBlocks).scheduleIos, [], 0, off', remaining')
    else (acc', tmpQ, nBlocks, off', remaining')

/-- `WalbLogApplyer::redoNormalIo(rec, blockS)`: split the record into
`dev_pbs`-sized IOs (a zeroed buffer per block for zero-discard), clip each
IO that would extend past the device size (counting `nClipped`), coalesce
the survivors in a staging `IoQueue`, and prepare / schedule them in
batches of at most `queueSize / 2` blocks. -/
def RedoState.redoNormalIo (s : RedoState) (pbs : Nat) (rec : LogRecord)
    (blockS : List RBlock) : RedoState :=
  let fin := (List.range (rec.ioSizePb pbs)).foldl
    (RedoState.redoNormalStep rec blockS)
    (s, [], 0, rec.offset * LOGICAL_BLOCK_SIZE,
     rec.ioSizeLb * LOGICAL_BLOCK_SIZE)
  (fin.1.prepareIos fin.2.1 fin.2.2.1).scheduleIos

/-- A fresh applyer state. -/
def RedoState.init (queueSize blockSize deviceSize : Nat) : RedoState :=
  { queueSize := queueSize, blockSize := blockSize, deviceSize := deviceSize }

/-- A machine-level redo run over prepared IO groups: each group goes
through one `prepareIos` / `scheduleIos` round (as one batch of
`redoNormalIo` does), and the run finishes like `readAndApply`:
`submitIos()` then `waitForAllPendingIos()`. -/
def runRedoIos (queueSize blockSize deviceSize : Nat)
    (groups : List (List RIo)) : RedoState :=
  let s1 := groups.foldl (fun acc g => (acc.prepareIos g g.length).scheduleIos)
    (RedoState.init queueSize blockSize deviceSize)
  s1.submitIos.waitForAllPendingIos

/-- A redo run over normal log records (`readAndApply` restricted to the
normal path): apply `redoNormalIo` per record, then `submitIos()` and
`waitForAllPendingIos()`. -/
def runRedoNormal (queueSize blockSize deviceSize pbs : Nat)
    (records : List (LogRecord × List RBlock)) : RedoState :=
  let s1 := records.foldl (fun acc e => acc.redoNormalIo pbs e.1 e.2)
    (RedoState.init queueSize blockSize deviceSize)
  s1.submitIos.waitForAllPendingIos

/-- The applyer's bookkeeping invariant: every recorded device write is for
an IO that is marked submitted; a pop is counted in `nWritten` only for a
submitted IO; `nWritten` / `nOverwritten` are exactly the counts of
positively / negatively tagged pop entries; every created IO is either
still queued in `ioQ_` or has been popped; and all queue / map entries
refer to created IOs. -/
def MachInv (s : RedoState) : Prop :=
  (∀ e ∈ s.writeLog, (s.io e.ioId).isSubmitted = true ∧ e.ioId < s.nIos) ∧
  (∀ p ∈ s.popLog, (p.2 = true → (s.io p.1).isSubmitted = true) ∧
    p.1 < s.nIos) ∧
  s.nWritten = (s.popLog.filter (fun p => p.2)).length ∧
  s.nOverwritten = (s.popLog.filter (fun p => !p.2)).length ∧
  (∀ i, i < s.nIos → i ∈ s.ioQ ∨ ∃ b, (i, b) ∈ s.popLog) ∧
  (∀ j ∈ s.ioQ, j < s.nIos) ∧
  (∀ j ∈ s.readyIoQ, j < s.nIos) ∧
  (∀ j ∈ s.submitIoQ, j < s.nIos) ∧
  (∀ j ∈ s.olSet, j < s.nIos)

/-- The clip-safety invariant: every IO object targets a byte range inside
the device, and so does every recorded device write. -/
def BInv (s : RedoState) : Prop :=
  (∀ j, (s.io j).offset + (s.io j).size ≤ s.deviceSize) ∧
  (∀ e ∈ s.writeLog, e.offset + e.size ≤ s.deviceSize)

/-- Projection of `setIo`. -/
theorem RedoState.io_setIo (s : RedoState) (i : Nat) (x : RIo) (j : Nat) :
    (s.setIo i x).io j = if j = i then x else s.io j := rfl

/-- Fields of the applyer state that the overlap-map operations, the
submission-side operations and the ready-queue promotion never change. -/
def coreEq (s t : RedoState) : Prop :=
  t.ioQ = s.ioQ ∧ t.popLog = s.popLog ∧ t.nIos = s.nIos ∧
  t.nWritten = s.nWritten ∧ t.nOverwritten = s.nOverwritten ∧
  t.queueSize = s.queueSize ∧ t.blockSize = s.blockSize ∧
  t.deviceSize = s.deviceSize

theorem coreEq_refl (s : RedoState) : coreEq s s :=
  ⟨rfl, rfl, rfl, rfl, rfl, rfl, rfl, rfl⟩

theorem coreEq_trans {s t u : RedoState} (h1 : coreEq s t) (h2 : coreEq t u) :
    coreEq s u :=
  ⟨h2.1.trans h1.1, h2.2.1.trans h1.2.1, h2.2.2.1.trans h1.2.2.1,
   h2.2.2.2.1.trans h1.2.2.2.1, h2.2.2.2.2.1.trans h1.2.2.2.2.1,
   h2.2.2.2.2.2.1.trans h1.2.2.2.2.2.1,
   h2.2.2.2.2.2.2.1.trans h1.2.2.2.2.2.2.1,
   h2.2.2.2.2.2.2.2.trans h1.2.2.2.2.2.2.2⟩

/-- `Io` evolution: the target offset and size of an `Io` object never
change and submission is irrevocable. -/
def ioMono (s t : RedoState) : Prop :=
  ∀ j, (t.io j).offset = (s.io j).offset ∧ (t.io j).size = (s.io j).size ∧
    ((s.io j).isSubmitted = true → (t.io j).isSubmitted = true)

theorem ioMono_refl (s : RedoState) : ioMono s s :=
  fun _ => ⟨rfl, rfl, id⟩

theorem ioMono_trans {s t u : RedoState} (h1 : ioMono s t) (h2 : ioMono t u) :
    ioMono s u := fun j =>
  ⟨(h2 j).1.trans (h1 j).1, (h2 j).2.1.trans (h1 j).2.1,
   fun h => (h2 j).2.2 ((h1 j).2.2 h)⟩

/-- The write log only grows, and every new entry belongs to an IO drawn
from `dom`, marked submitted afterwards, whose offset and size match the
IO object's. -/
def wlogExt (s t : RedoState) (dom : List Nat) : Prop :=
  ∃ tl, t.writeLog = s.writeLog ++ tl ∧
    ∀ e ∈ tl, e.ioId ∈ dom ∧ (t.io e.ioId).isSubmitted = true ∧
      e.offset = (s.io e.ioId).offset ∧ e.size = (s.io e.ioId).size

theorem wlogExt_refl (s : RedoState) (dom : List Nat) : wlogExt s s dom :=
  ⟨[], by simp, by simp⟩

theorem wlogExt_of_eq {s t : RedoState} (h : t.writeLog = s.writeLog)
    (dom : List Nat) : wlogExt s t dom :=
  ⟨[], by simp [h], by simp⟩

theorem wlogExt_trans {s t u : RedoState} {dom1 dom2 : List Nat}
    (hst : wlogExt s t dom1) (htu : wlogExt t u dom2)
    (hm1 : ioMono s t) (hm2 : ioMono t u) : wlogExt s u (dom1 ++ dom2) := by
  obtain ⟨tl1, he1, hp1⟩ := hst
  obtain ⟨tl2, he2, hp2⟩ := htu
  refine ⟨tl1 ++ tl2, by rw [he2, he1, List.append_assoc], ?_⟩
  intro e he
  rcases List.mem_append.mp he with h | h
  · obtain ⟨hd, hs, ho, hz⟩ := hp1 e h
    exact ⟨List.mem_append.mpr (Or.inl hd), (hm2 e.ioId).2.2 hs, ho, hz⟩
  · obtain ⟨hd, hs, ho, hz⟩ := hp2 e h
    exact ⟨List.mem_append.mpr (Or.inr hd), hs,
      ho.trans (hm1 e.ioId).1, hz.trans (hm1 e.ioId).2.1⟩

/-- One submission step: core fields, `readyIoQ_`, `submitIoQ_`, the
overlap map and the clip/discard/padding/pending counters are unchanged,
IOs only gain the submitted flag (at unchanged offset / size), and at most
one write-log entry for the drained id is appended. -/
theorem submitOne_props (acc : RedoState) (i : Nat) :
    coreEq acc (acc.submitOne i) ∧
    (acc.submitOne i).readyIoQ = acc.readyIoQ ∧
    (acc.submitOne i).submitIoQ = acc.submitIoQ ∧
    (acc.submitOne i).olSet = acc.olSet ∧
    (acc.submitOne i).olMaxSize = acc.olMaxSize ∧
    (acc.submitOne i).nPendingBlocks = acc.nPendingBlocks ∧
    (acc.submitOne i).nClipped = acc.nClipped ∧
    ioMono acc (acc.submitOne i) ∧
    wlogExt acc (acc.submitOne i) [i] ∧
    (∀ j, j ≠ i → (acc.submitOne i).io j = acc.io j) := by
  by_cases hov : (acc.io i).isOverwritten = true
  · have heq : acc.submitOne i = acc := by
      unfold RedoState.submitOne
      simp [hov]
    rw [heq]
    exact ⟨coreEq_refl acc, rfl, rfl, rfl, rfl, rfl, rfl, ioMono_refl acc,
      wlogExt_refl acc [i], fun _ _ => rfl⟩
  · have heq : acc.submitOne i =
        { acc.setIo i { acc.io i with isSubmitted := true } with
          writeLog := acc.writeLog ++
            [⟨i, (acc.io i).offset, (acc.io i).size,
              (((acc.io i).blocks.map (·.bytes)).flatten).take
                (acc.io i).size⟩] } := by
      unfold RedoState.submitOne
      rw [if_neg hov]
      rfl
    rw [heq]
    have hio : ∀ j, ({ acc.setIo i { acc.io i with isSubmitted := true } with
        writeLog := acc.writeLog ++
          [⟨i, (acc.io i).offset, (acc.io i).size,
            (((acc.io i).blocks.map (·.bytes)).flatten).take
              (acc.io i).size⟩] } : RedoState).io j =
        if j = i then { acc.io i with isSubmitted := true } else acc.io j :=
      fun j => RedoState.io_setIo acc i _ j
    refine ⟨⟨rfl, rfl, rfl, rfl, rfl, rfl, rfl, rfl⟩, rfl, rfl, rfl, rfl,
      rfl, rfl, ?_, ?_, ?_⟩
    · intro j
      rw [hio j]
      by_cases hj : j = i
      · subst hj
        simp
      · simp [hj]
    · refine ⟨[⟨i, (acc.io i).offset, (acc.io i).size,
        (((acc.io i).blocks.map (·.bytes)).flatten).take (acc.io i).size⟩],
        rfl, ?_⟩
      intro e he
      simp only [List.mem_singleton] at he
      subst he
      refine ⟨by simp, ?_, rfl, rfl⟩
      rw [hio i]
      simp
    · intro j hj
      rw [hio j]
      simp [hj]

theorem wlogExt_mono_dom {s t : RedoState} {dom dom' : List Nat}
    (h : wlogExt s t dom) (hsub : ∀ x ∈ dom, x ∈ dom') :
    wlogExt s t dom' := by
  obtain ⟨tl, he, hp⟩ := h
  exact ⟨tl, he, fun e hm =>
    ⟨hsub _ (hp e hm).1, (hp e hm).2.1, (hp e hm).2.2.1, (hp e hm).2.2.2⟩⟩

/-- Draining `submitIoQ_`: the composed properties of `submitOne` over the
whole queue. -/
theorem submitFold_props (l : List Nat) : ∀ acc : RedoState,
    coreEq acc (l.foldl RedoState.submitOne acc) ∧
    (l.foldl RedoState.submitOne acc).readyIoQ = acc.readyIoQ ∧
    (l.foldl RedoState.submitOne acc).submitIoQ = acc.submitIoQ ∧
    (l.foldl RedoState.submitOne acc).olSet = acc.olSet ∧
    (l.foldl RedoState.submitOne acc).olMaxSize = acc.olMaxSize ∧
    (l.foldl RedoState.submitOne acc).nPendingBlocks = acc.nPendingBlocks ∧
    (l.foldl RedoState.submitOne acc).nClipped = acc.nClipped ∧
    ioMono acc (l.foldl RedoState.submitOne acc) ∧
    wlogExt acc (l.foldl RedoState.submitOne acc) l := by
  induction l with
  | nil =>
    intro acc
    exact ⟨coreEq_refl _, rfl, rfl, rfl, rfl, rfl, rfl, ioMono_refl _,
      wlogExt_refl _ _⟩
  | cons i l ih =>
    intro acc
    simp only [List.foldl_cons]
    obtain ⟨c1, r1, q1, o1, m1, p1, cl1, im1, wl1, -⟩ := submitOne_props acc i
    obtain ⟨c2, r2, q2, o2, m2, p2, cl2, im2, wl2⟩ := ih (acc.submitOne i)
    refine ⟨coreEq_trans c1 c2, r2.trans r1, q2.trans q1, o2.trans o1,
      m2.trans m1, p2.trans p1, cl2.trans cl1, ioMono_trans im1 im2, ?_⟩
    exact wlogExt_trans wl1 wl2 im1 im2

/-- `submitIos` properties: core fields / ready queue / overlap map
unchanged, submission queue emptied, and writes extended only by entries
for queued ids. -/
theorem submitIos_props (s : RedoState) :
    coreEq s s.submitIos ∧ s.submitIos.readyIoQ = s.readyIoQ ∧
    s.submitIos.submitIoQ = [] ∧ s.submitIos.olSet = s.olSet ∧
    s.submitIos.olMaxSize = s.olMaxSize ∧
    s.submitIos.nPendingBlocks = s.nPendingBlocks ∧
    s.submitIos.nClipped = s.nClipped ∧
    ioMono s s.submitIos ∧ wlogExt s s.submitIos s.submitIoQ := by
  have h := submitFold_props s.submitIoQ { s with submitIoQ := [] }
  exact ⟨h.1, h.2.1, h.2.2.1, h.2.2.2.1, h.2.2.2.2.1, h.2.2.2.2.2.1,
    h.2.2.2.2.2.2.1, h.2.2.2.2.2.2.2.1, h.2.2.2.2.2.2.2.2⟩

/-- Membership in the sorted insertion of `scheduleIos`. -/
theorem mem_insertSortedByOffset (s : RedoState) (i : Nat) :
    ∀ (q : List Nat) (j : Nat), j ∈ s.insertSortedByOffset i q →
      j = i ∨ j ∈ q := by
  intro q
  induction q with
  | nil =>
    intro j hj
    simp only [RedoState.insertSortedByOffset, List.mem_singleton] at hj
    exact Or.inl hj
  | cons k q ih =>
    intro j hj
    simp only [RedoState.insertSortedByOffset] at hj
    split at hj
    · rcases List.mem_cons.mp hj with rfl | hj
      · exact Or.inr (List.mem_cons_self _ _)
      · rcases ih j hj with h | h
        · exact Or.inl h
        · exact Or.inr (List.mem_cons_of_mem _ h)
    · rcases List.mem_cons.mp hj with rfl | hj
      · exact Or.inl rfl
      · exact Or.inr hj

/-- One scheduling step: the drained id may enter `submitIoQ_` (sorted) or
trigger a batch submission; everything else follows `submitIos`. -/
theorem scheduleOne_props (acc : RedoState) (i : Nat) :
    coreEq acc (acc.scheduleOne i) ∧
    (acc.scheduleOne i).readyIoQ = acc.readyIoQ ∧
    (∀ j ∈ (acc.scheduleOne i).submitIoQ, j = i ∨ j ∈ acc.submitIoQ) ∧
    (acc.scheduleOne i).olSet = acc.olSet ∧
    (acc.scheduleOne i).olMaxSize = acc.olMaxSize ∧
    (acc.scheduleOne i).nPendingBlocks = acc.nPendingBlocks ∧
    (acc.scheduleOne i).nClipped = acc.nClipped ∧
    ioMono acc (acc.scheduleOne i) ∧
    wlogExt acc (acc.scheduleOne i) (i :: acc.submitIoQ) := by
  unfold RedoState.scheduleOne
  by_cases hov : (acc.io i).isOverwritten = true
  · rw [if_pos hov]
    exact ⟨coreEq_refl _, rfl, fun j hj => Or.inr hj, rfl, rfl, rfl, rfl,
      ioMono_refl _, wlogExt_refl _ _⟩
  · rw [if_neg hov]
    set acc1 : RedoState :=
      { acc with submitIoQ := acc.insertSortedByOffset i acc.submitIoQ }
      with hacc1
    by_cases hfull : acc1.queueSize ≤ acc1.submitIoQ.length
    · rw [if_pos hfull]
      obtain ⟨c2, r2, q2, o2, m2, p2, cl2, im2, wl2⟩ := submitIos_props acc1
      refine ⟨c2, r2, ?_, o2, m2, p2, cl2, im2, ?_⟩
      · intro j hj
        rw [q2] at hj
        simp at hj
      · refine wlogExt_mono_dom wl2 ?_
        intro x hx
        rcases mem_insertSortedByOffset acc i acc.submitIoQ x hx with h | h
        · exact h ▸ List.mem_cons_self _ _
        · exact List.mem_cons_of_mem _ h
    · rw [if_neg hfull]
      refine ⟨coreEq_refl _, rfl, ?_, rfl, rfl, rfl, rfl, ioMono_refl _,
        wlogExt_refl _ _⟩
      intro j hj
      exact mem_insertSortedByOffset acc i acc.submitIoQ j hj

/-- Draining `readyIoQ_`: composed `scheduleOne` properties. -/
theorem scheduleFold_props (l : List Nat) : ∀ acc : RedoState,
    coreEq acc (l.foldl RedoState.scheduleOne acc) ∧
    (l.foldl RedoState.scheduleOne acc).readyIoQ = acc.readyIoQ ∧
    (∀ j ∈ (l.foldl RedoState.scheduleOne acc).submitIoQ,
      j ∈ l ∨ j ∈ acc.submitIoQ) ∧
    (l.foldl RedoState.scheduleOne acc).olSet = acc.olSet ∧
    (l.foldl RedoState.scheduleOne acc).olMaxSize = acc.olMaxSize ∧
    (l.foldl RedoState.scheduleOne acc).nPendingBlocks =
      acc.nPendingBlocks ∧
    (l.foldl RedoState.scheduleOne acc).nClipped = acc.nClipped ∧
    ioMono acc (l.foldl RedoState.scheduleOne acc) ∧
    wlogExt acc (l.foldl RedoState.scheduleOne acc) (l ++ acc.submitIoQ) := by
  induction l with
  | nil =>
    intro acc
    exact ⟨coreEq_refl _, rfl, fun j hj => Or.inr hj, rfl, rfl, rfl, rfl,
      ioMono_refl _, wlogExt_refl _ _⟩
  | cons i l ih =>
    intro acc
    simp only [List.foldl_cons]
    obtain ⟨c1, r1, q1, o1, m1, p1, cl1, im1, wl1⟩ := scheduleOne_props acc i
    obtain ⟨c2, r2, q2, o2, m2, p2, cl2, im2, wl2⟩ := ih (acc.scheduleOne i)
    refine ⟨coreEq_trans c1 c2, r2.trans r1, ?_, o2.trans o1, m2.trans m1,
      p2.trans p1, cl2.trans cl1, ioMono_trans im1 im2, ?_⟩
    · intro j hj
      rcases q2 j hj with h | h
      · exact Or.inl (List.mem_cons_of_mem _ h)
      · rcases q1 j h with h' | h'
        · exact Or.inl (h' ▸ List.mem_cons_self _ _)
        · exact Or.inr h'
    · refine wlogExt_mono_dom (wlogExt_trans wl1 wl2 im1 im2) ?_
      intro x hx
      rcases List.mem_append.mp hx with h | h
      · rcases List.mem_cons.mp h with rfl | h'
        · exact List.mem_cons_self _ _
        · exact List.mem_append.mpr (Or.inr h')
      · rcases List.mem_append.mp h with h' | h'
        · exact List.mem_cons_of_mem _ (List.mem_append.mpr (Or.inl h'))
        · rcases q1 x h' with h'' | h''
          · exact h'' ▸ List.mem_cons_self _ _
          · exact List.mem_cons_of_mem _ (List.mem_append.mpr (Or.inr h''))

/-- `scheduleIos` properties. -/
theorem scheduleIos_props (s : RedoState) :
    coreEq s s.scheduleIos ∧ s.scheduleIos.readyIoQ = [] ∧
    (∀ j ∈ s.scheduleIos.submitIoQ, j ∈ s.readyIoQ ∨ j ∈ s.submitIoQ) ∧
    s.scheduleIos.olSet = s.olSet ∧
    s.scheduleIos.olMaxSize = s.olMaxSize ∧
    s.scheduleIos.nPendingBlocks = s.nPendingBlocks ∧
    s.scheduleIos.nClipped = s.nClipped ∧
    ioMono s s.scheduleIos ∧
    wlogExt s s.scheduleIos (s.readyIoQ ++ s.submitIoQ) := by
  have h := scheduleFold_props s.readyIoQ { s with readyIoQ := [] }
  exact ⟨h.1, h.2.1, h.2.2.1, h.2.2.2.1, h.2.2.2.2.1, h.2.2.2.2.2.1,
    h.2.2.2.2.2.2.1, h.2.2.2.2.2.2.2.1, h.2.2.2.2.2.2.2.2⟩

/-- `Io::overwritten()` changes at most the overwrite flag and the payload
blocks. -/
theorem RIo.overwritten_fields (io : RIo) :
    (io.overwritten).offset = io.offset ∧ (io.overwritten).size = io.size ∧
    (io.overwritten).isSubmitted = io.isSubmitted ∧
    (io.overwritten).nOverlapped = io.nOverlapped := by
  unfold RIo.overwritten
  split
  · exact ⟨rfl, rfl, rfl, rfl⟩
  · exact ⟨rfl, rfl, rfl, rfl⟩

/-- One overlap-map marking step changes at most overwrite flags and payload
blocks of IOs. -/
theorem olInsMark_props (iop : RIo) (ms : Nat) (acc : RedoState) (j : Nat) :
    coreEq acc (RedoState.olInsMark iop ms acc j) ∧
    (RedoState.olInsMark iop ms acc j).readyIoQ = acc.readyIoQ ∧
    (RedoState.olInsMark iop ms acc j).submitIoQ = acc.submitIoQ ∧
    (RedoState.olInsMark iop ms acc j).olSet = acc.olSet ∧
    (RedoState.olInsMark iop ms acc j).olMaxSize = acc.olMaxSize ∧
    (RedoState.olInsMark iop ms acc j).writeLog = acc.writeLog ∧
    (RedoState.olInsMark iop ms acc j).nPendingBlocks = acc.nPendingBlocks ∧
    (RedoState.olInsMark iop ms acc j).nClipped = acc.nClipped ∧
    (∀ k, ((RedoState.olInsMark iop ms acc j).io k).offset =
        (acc.io k).offset ∧
      ((RedoState.olInsMark iop ms acc j).io k).size = (acc.io k).size ∧
      ((RedoState.olInsMark iop ms acc j).io k).isSubmitted =
        (acc.io k).isSubmitted) := by
  unfold RedoState.olInsMark
  split
  · refine ⟨⟨rfl, rfl, rfl, rfl, rfl, rfl, rfl, rfl⟩, rfl, rfl, rfl, rfl,
      rfl, rfl, rfl, ?_⟩
    intro k
    rw [RedoState.io_setIo]
    by_cases hk : k = j
    · subst hk
      rw [if_pos rfl]
      obtain ⟨h1, h2, h3, -⟩ := RIo.overwritten_fields (acc.io k)
      exact ⟨h1, h2, h3⟩
    · rw [if_neg hk]
      exact ⟨rfl, rfl, rfl⟩
  · exact ⟨coreEq_refl _, rfl, rfl, rfl, rfl, rfl, rfl, rfl,
      fun _ => ⟨rfl, rfl, rfl⟩⟩

/-- The composed marking scan of `OverlappedData::ins`. -/
theorem olInsFold_props (iop : RIo) (ms : Nat) (l : List Nat) :
    ∀ acc : RedoState,
      coreEq acc (l.foldl (RedoState.olInsMark iop ms) acc) ∧
      (l.foldl (RedoState.olInsMark iop ms) acc).readyIoQ = acc.readyIoQ ∧
      (l.foldl (RedoState.olInsMark iop ms) acc).submitIoQ = acc.submitIoQ ∧
      (l.foldl (RedoState.olInsMark iop ms) acc).olSet = acc.olSet ∧
      (l.foldl (RedoState.olInsMark iop ms) acc).olMaxSize = acc.olMaxSize ∧
      (l.foldl (RedoState.olInsMark iop ms) acc).writeLog = acc.writeLog ∧
      (l.foldl (RedoState.olInsMark iop ms) acc).nPendingBlocks =
        acc.nPendingBlocks ∧
      (l.foldl (RedoState.olInsMark iop ms) acc).nClipped = acc.nClipped ∧
      (∀ k, ((l.foldl (RedoState.olInsMark iop ms) acc).io k).offset =
          (acc.io k).offset ∧
        ((l.foldl (RedoState.olInsMark iop ms) acc).io k).size =
          (acc.io k).size ∧
        ((l.foldl (RedoState.olInsMark iop ms) acc).io k).isSubmitted =
          (acc.io k).isSubmitted) := by
  induction l with
  | nil =>
    intro acc
    exact ⟨coreEq_refl _, rfl, rfl, rfl, rfl, rfl, rfl, rfl,
      fun _ => ⟨rfl, rfl, rfl⟩⟩
  | cons j l ih =>
    intro acc
    simp only [List.foldl_cons]
    obtain ⟨c1, r1, q1, o1, m1, w1, p1, cl1, f1⟩ := olInsMark_props iop ms acc j
    obtain ⟨c2, r2, q2, o2, m2, w2, p2, cl2, f2⟩ :=
      ih (RedoState.olInsMark iop ms acc j)
    refine ⟨coreEq_trans c1 c2, r2.trans r1, q2.trans q1, o2.trans o1,
      m2.trans m1, w2.trans w1, p2.trans p1, cl2.trans cl1, ?_⟩
    intro k
    exact ⟨(f2 k).1.trans (f1 k).1, (f2 k).2.1.trans (f1 k).2.1,
      (f2 k).2.2.trans (f1 k).2.2⟩

/-- `olIns` properties: queues, write log and counters unchanged, the id is
appended to the overlap set, and IOs keep offset / size / submission. -/
theorem olIns_eq (s : RedoState) (i : Nat) :
    s.olIns i =
      { (s.olSet.foldl (RedoState.olInsMark (s.io i) s.olMaxSize) s).setIo i
          { s.io i with nOverlapped := (s.olSet.filter (fun j =>
              OverlappedData.inWindow (s.io i) s.olMaxSize (s.io j) &&
                (s.io j).isOverlapped (s.io i))).length } with
        olSet := (s.olSet.foldl (RedoState.olInsMark (s.io i) s.olMaxSize)
          s).olSet ++ [i]
        olMaxSize := max (s.olSet.foldl (RedoState.olInsMark (s.io i)
          s.olMaxSize) s).olMaxSize (s.io i).size } := rfl

theorem olIns_props (s : RedoState) (i : Nat) :
    coreEq s (s.olIns i) ∧
    (s.olIns i).readyIoQ = s.readyIoQ ∧
    (s.olIns i).submitIoQ = s.submitIoQ ∧
    (s.olIns i).olSet = s.olSet ++ [i] ∧
    (s.olIns i).writeLog = s.writeLog ∧
    (s.olIns i).nPendingBlocks = s.nPendingBlocks ∧
    (s.olIns i).nClipped = s.nClipped ∧
    (∀ k, ((s.olIns i).io k).offset = (s.io k).offset ∧
      ((s.olIns i).io k).size = (s.io k).size ∧
      ((s.olIns i).io k).isSubmitted = (s.io k).isSubmitted) := by
  obtain ⟨c1, r1, q1, o1, m1, w1, p1, cl1, f1⟩ :=
    olInsFold_props (s.io i) s.olMaxSize s.olSet s
  refine ⟨⟨c1.1, c1.2.1, c1.2.2.1, c1.2.2.2.1, c1.2.2.2.2.1,
      c1.2.2.2.2.2.1, c1.2.2.2.2.2.2.1, c1.2.2.2.2.2.2.2⟩,
    r1, q1, congrArg (· ++ [i]) o1, w1, p1, cl1, ?_⟩
  intro k
  have hio : (s.olIns i).io k =
      if k = i then
        { s.io i with nOverlapped := (s.olSet.filter (fun j =>
            OverlappedData.inWindow (s.io i) s.olMaxSize (s.io j) &&
              (s.io j).isOverlapped (s.io i))).length }
      else (s.olSet.foldl (RedoState.olInsMark (s.io i) s.olMaxSize) s).io k :=
    RedoState.io_setIo _ _ _ _
  rw [hio]
  by_cases hk : k = i
  · subst hk
    rw [if_pos rfl]
    exact ⟨rfl, rfl, rfl⟩
  · rw [if_neg hk]
    exact f1 k

/-- One overlap-map deletion step changes at most an IO's overlap counter
and may collect its id. -/
theorem olDelStep_props (iop : RIo) (ms : Nat) (acc : RedoState × List Nat)
    (j : Nat) :
    coreEq acc.1 (RedoState.olDelStep iop ms acc j).1 ∧
    (RedoState.olDelStep iop ms acc j).1.readyIoQ = acc.1.readyIoQ ∧
    (RedoState.olDelStep iop ms acc j).1.submitIoQ = acc.1.submitIoQ ∧
    (RedoState.olDelStep iop ms acc j).1.olSet = acc.1.olSet ∧
    (RedoState.olDelStep iop ms acc j).1.olMaxSize = acc.1.olMaxSize ∧
    (RedoState.olDelStep iop ms acc j).1.writeLog = acc.1.writeLog ∧
    (RedoState.olDelStep iop ms acc j).1.nPendingBlocks =
      acc.1.nPendingBlocks ∧
    (RedoState.olDelStep iop ms acc j).1.nClipped = acc.1.nClipped ∧
    (∀ k, ((RedoState.olDelStep iop ms acc j).1.io k).offset =
        (acc.1.io k).offset ∧
      ((RedoState.olDelStep iop ms acc j).1.io k).size = (acc.1.io k).size ∧
      ((RedoState.olDelStep iop ms acc j).1.io k).isSubmitted =
        (acc.1.io k).isSubmitted ∧
      ((RedoState.olDelStep iop ms acc j).1.io k).isOverwritten =
        (acc.1.io k).isOverwritten) ∧
    (∀ x ∈ (RedoState.olDelStep iop ms acc j).2, x ∈ acc.2 ∨ x = j) := by
  by_cases hc : (OverlappedData.inWindow iop ms (acc.1.io j) &&
      (acc.1.io j).isOverlapped iop) = true
  · have heq : RedoState.olDelStep iop ms acc j =
        (acc.1.setIo j
          { acc.1.io j with nOverlapped := (acc.1.io j).nOverlapped - 1 },
         if (acc.1.io j).nOverlapped - 1 = 0 then acc.2 ++ [j] else acc.2) := by
      unfold RedoState.olDelStep
      rw [if_pos hc]
    rw [heq]
    refine ⟨⟨rfl, rfl, rfl, rfl, rfl, rfl, rfl, rfl⟩, rfl, rfl, rfl, rfl,
      rfl, rfl, rfl, ?_, ?_⟩
    · intro k
      show ((acc.1.setIo j _).io k).offset = _ ∧ _
      rw [RedoState.io_setIo]
      by_cases hk : k = j
      · subst hk
        rw [if_pos rfl]
        exact ⟨rfl, rfl, rfl, rfl⟩
      · rw [if_neg hk]
        exact ⟨rfl, rfl, rfl, rfl⟩
    · intro x hx
      by_cases hz : (acc.1.io j).nOverlapped - 1 = 0
      · rw [if_pos hz] at hx
        rcases List.mem_append.mp hx with h | h
        · exact Or.inl h
        · simp only [List.mem_singleton] at h
          exact Or.inr h
      · rw [if_neg hz] at hx
        exact Or.inl hx
  · have heq : RedoState.olDelStep iop ms acc j = acc := by
      unfold RedoState.olDelStep
      rw [if_neg hc]
    rw [heq]
    exact ⟨coreEq_refl _, rfl, rfl, rfl, rfl, rfl, rfl, rfl,
      fun _ => ⟨rfl, rfl, rfl, rfl⟩, fun x hx => Or.inl hx⟩

/-- The composed deletion scan of `OverlappedData::del`. -/
theorem olDelFold_props (iop : RIo) (ms : Nat) (l : List Nat) :
    ∀ acc : RedoState × List Nat,
      coreEq acc.1 (l.foldl (RedoState.olDelStep iop ms) acc).1 ∧
      (l.foldl (RedoState.olDelStep iop ms) acc).1.readyIoQ =
        acc.1.readyIoQ ∧
      (l.foldl (RedoState.olDelStep iop ms) acc).1.submitIoQ =
        acc.1.submitIoQ ∧
      (l.foldl (RedoState.olDelStep iop ms) acc).1.olSet = acc.1.olSet ∧
      (l.foldl (RedoState.olDelStep iop ms) acc).1.olMaxSize =
        acc.1.olMaxSize ∧
      (l.foldl (RedoState.olDelStep iop ms) acc).1.writeLog =
        acc.1.writeLog ∧
      (l.foldl (RedoState.olDelStep iop ms) acc).1.nPendingBlocks =
        acc.1.nPendingBlocks ∧
      (l.foldl (RedoState.olDelStep iop ms) acc).1.nClipped =
        acc.1.nClipped ∧
      (∀ k, ((l.foldl (RedoState.olDelStep iop ms) acc).1.io k).offset =
          (acc.1.io k).offset ∧
        ((l.foldl (RedoState.olDelStep iop ms) acc).1.io k).size =
          (acc.1.io k).size ∧
        ((l.foldl (RedoState.olDelStep iop ms) acc).1.io k).isSubmitted =
          (acc.1.io k).isSubmitted ∧
        ((l.foldl (RedoState.olDelStep iop ms) acc).1.io k).isOverwritten =
          (acc.1.io k).isOverwritten) ∧
      (∀ x ∈ (l.foldl (RedoState.olDelStep iop ms) acc).2,
        x ∈ acc.2 ∨ x ∈ l) := by
  induction l with
  | nil =>
    intro acc
    exact ⟨coreEq_refl _, rfl, rfl, rfl, rfl, rfl, rfl, rfl,
      fun _ => ⟨rfl, rfl, rfl, rfl⟩, fun x hx => Or.inl hx⟩
  | cons j l ih =>
    intro acc
    simp only [List.foldl_cons]
    obtain ⟨c1, r1, q1, o1, m1, w1, p1, cl1, f1, t1⟩ :=
      olDelStep_props iop ms acc j
    obtain ⟨c2, r2, q2, o2, m2, w2, p2, cl2, f2, t2⟩ :=
      ih (RedoState.olDelStep iop ms acc j)
    refine ⟨coreEq_trans c1 c2, r2.trans r1, q2.trans q1, o2.trans o1,
      m2.trans m1, w2.trans w1, p2.trans p1, cl2.trans cl1, ?_, ?_⟩
    · intro k
      exact ⟨(f2 k).1.trans (f1 k).1, (f2 k).2.1.trans (f1 k).2.1,
        (f2 k).2.2.1.trans (f1 k).2.2.1, (f2 k).2.2.2.trans (f1 k).2.2.2⟩
    · intro x hx
      rcases t2 x hx with h | h
      · rcases t1 x h with h' | h'
        · exact Or.inl h'
        · exact Or.inr (h' ▸ List.mem_cons_self _ _)
      · exact Or.inr (List.mem_cons_of_mem _ h)

/-- `olDel` properties. -/
theorem olDel_props (s : RedoState) (i : Nat) :
    coreEq s (s.olDel i).1 ∧
    (s.olDel i).1.readyIoQ = s.readyIoQ ∧
    (s.olDel i).1.submitIoQ = s.submitIoQ ∧
    (s.olDel i).1.olSet = s.olSet.erase i ∧
    (s.olDel i).1.writeLog = s.writeLog ∧
    (s.olDel i).1.nPendingBlocks = s.nPendingBlocks ∧
    (s.olDel i).1.nClipped = s.nClipped ∧
    (∀ k, ((s.olDel i).1.io k).offset = (s.io k).offset ∧
      ((s.olDel i).1.io k).size = (s.io k).size ∧
      ((s.olDel i).1.io k).isSubmitted = (s.io k).isSubmitted ∧
      ((s.olDel i).1.io k).isOverwritten = (s.io k).isOverwritten) ∧
    (∀ x ∈ (s.olDel i).2, x ∈ s.olSet.erase i) := by
  obtain ⟨c1, r1, q1, o1, m1, w1, p1, cl1, f1, t1⟩ :=
    olDelFold_props (s.io i)
      (if (s.olSet.erase i).isEmpty then 0 else s.olMaxSize)
      (s.olSet.erase i)
      (({ s with
          olSet := s.olSet.erase i
          olMaxSize := if (s.olSet.erase i).isEmpty then 0
            else s.olMaxSize } : RedoState),
       ([] : List Nat))
  refine ⟨⟨c1.1, c1.2.1, c1.2.2.1, c1.2.2.2.1, c1.2.2.2.2.1,
      c1.2.2.2.2.2.1, c1.2.2.2.2.2.2.1, c1.2.2.2.2.2.2.2⟩,
    r1, q1, o1, w1, p1, cl1, f1, ?_⟩
  intro x hx
  rcases t1 x hx with h | h
  · simp at h
  · exact h

/-- The ready-queue promotion loop after an overlap-map deletion. -/
theorem promoteFold_props (l : List Nat) : ∀ acc : RedoState,
    coreEq acc (l.foldl RedoState.promoteOne acc) ∧
    (l.foldl RedoState.promoteOne acc).submitIoQ = acc.submitIoQ ∧
    (l.foldl RedoState.promoteOne acc).olSet = acc.olSet ∧
    (l.foldl RedoState.promoteOne acc).olMaxSize = acc.olMaxSize ∧
    (l.foldl RedoState.promoteOne acc).writeLog = acc.writeLog ∧
    (l.foldl RedoState.promoteOne acc).nPendingBlocks =
      acc.nPendingBlocks ∧
    (l.foldl RedoState.promoteOne acc).nClipped = acc.nClipped ∧
    (∀ k, (l.foldl RedoState.promoteOne acc).io k = acc.io k) ∧
    (∀ j ∈ (l.foldl RedoState.promoteOne acc).readyIoQ,
      j ∈ acc.readyIoQ ∨ j ∈ l) := by
  induction l with
  | nil =>
    intro acc
    exact ⟨coreEq_refl _, rfl, rfl, rfl, rfl, rfl, rfl, fun _ => rfl,
      fun j hj => Or.inl hj⟩
  | cons p l ih =>
    intro acc
    simp only [List.foldl_cons]
    have hstep : coreEq acc (acc.promoteOne p) ∧
        (acc.promoteOne p).submitIoQ = acc.submitIoQ ∧
        (acc.promoteOne p).olSet = acc.olSet ∧
        (acc.promoteOne p).olMaxSize = acc.olMaxSize ∧
        (acc.promoteOne p).writeLog = acc.writeLog ∧
        (acc.promoteOne p).nPendingBlocks = acc.nPendingBlocks ∧
        (acc.promoteOne p).nClipped = acc.nClipped ∧
        (∀ k, (acc.promoteOne p).io k = acc.io k) ∧
        (∀ j ∈ (acc.promoteOne p).readyIoQ,
          j ∈ acc.readyIoQ ∨ j = p) := by
      unfold RedoState.promoteOne
      split
      · exact ⟨coreEq_refl _, rfl, rfl, rfl, rfl, rfl, rfl, fun _ => rfl,
          fun j hj => Or.inl hj⟩
      · refine ⟨⟨rfl, rfl, rfl, rfl, rfl, rfl, rfl, rfl⟩, rfl, rfl, rfl,
          rfl, rfl, rfl, fun _ => rfl, ?_⟩
        intro j hj
        rcases List.mem_cons.mp hj with rfl | hj
        · exact Or.inr rfl
        · exact Or.inl hj
    obtain ⟨c1, q1, o1, m1, w1, p1, cl1, f1, r1⟩ := hstep
    obtain ⟨c2, q2, o2, m2, w2, p2, cl2, f2, r2⟩ := ih (acc.promoteOne p)
    refine ⟨coreEq_trans c1 c2, q2.trans q1, o2.trans o1, m2.trans m1,
      w2.trans w1, p2.trans p1, cl2.trans cl1,
      fun k => (f2 k).trans (f1 k), ?_⟩
    intro j hj
    rcases r2 j hj with h | h
    · rcases r1 j h with h' | h'
      · exact Or.inl h'
      · exact Or.inr (h' ▸ List.mem_cons_self _ _)
    · exact Or.inr (List.mem_cons_of_mem _ h)

theorem waitFor_eq_body (s : RedoState) (i : Nat) (rest : List Nat)
    (hq : s.ioQ = i :: rest) :
    s.waitForAnIoCompletion = s.waitForBody i rest := by
  unfold RedoState.waitForAnIoCompletion
  rw [hq]

/-- Counting a popped IO: `popLog` gains one entry tagged with the IO's
submission state, exactly one of `nWritten` / `nOverwritten` is bumped, and
nothing else changes (the completed flag aside). -/
theorem countPop_props (s : RedoState) (i : Nat) :
    (s.countPop i).ioQ = s.ioQ ∧ (s.countPop i).nIos = s.nIos ∧
    (s.countPop i).queueSize = s.queueSize ∧
    (s.countPop i).blockSize = s.blockSize ∧
    (s.countPop i).deviceSize = s.deviceSize ∧
    (s.countPop i).readyIoQ = s.readyIoQ ∧
    (s.countPop i).submitIoQ = s.submitIoQ ∧
    (s.countPop i).olSet = s.olSet ∧
    (s.countPop i).olMaxSize = s.olMaxSize ∧
    (s.countPop i).writeLog = s.writeLog ∧
    (s.countPop i).nPendingBlocks = s.nPendingBlocks ∧
    (s.countPop i).nClipped = s.nClipped ∧
    ioMono s (s.countPop i) ∧
    (s.countPop i).popLog = s.popLog ++ [(i, (s.io i).isSubmitted)] ∧
    ((s.io i).isSubmitted = true →
      ((s.countPop i).io i).isSubmitted = true) ∧
    (s.countPop i).nWritten =
      s.nWritten + (if (s.io i).isSubmitted then 1 else 0) ∧
    (s.countPop i).nOverwritten =
      s.nOverwritten + (if (s.io i).isSubmitted then 0 else 1) := by
  by_cases hs : (s.io i).isSubmitted = true
  · have heq : s.countPop i =
        { s.setIo i { s.io i with isCompleted := true } with
          nWritten := s.nWritten + 1
          popLog := s.popLog ++ [(i, true)] } := by
      unfold RedoState.countPop
      rw [if_pos hs]
    rw [heq]
    refine ⟨rfl, rfl, rfl, rfl, rfl, rfl, rfl, rfl, rfl, rfl, rfl, rfl,
      ?_, by simp [hs], ?_, by simp [hs], by simp only [hs]; rfl⟩
    · intro j
      have hio : ({ s.setIo i { s.io i with isCompleted := true } with
          nWritten := s.nWritten + 1
          popLog := s.popLog ++ [(i, true)] } : RedoState).io j =
          if j = i then { s.io i with isCompleted := true } else s.io j :=
        RedoState.io_setIo s i _ j
      rw [hio]
      by_cases hj : j = i
      · subst hj
        rw [if_pos rfl]
        exact ⟨rfl, rfl, fun h => h⟩
      · rw [if_neg hj]
        exact ⟨rfl, rfl, id⟩
    · intro h
      have hio : ({ s.setIo i { s.io i with isCompleted := true } with
          nWritten := s.nWritten + 1
          popLog := s.popLog ++ [(i, true)] } : RedoState).io i =
          if i = i then { s.io i with isCompleted := true } else s.io i :=
        RedoState.io_setIo s i _ i
      rw [hio, if_pos rfl]
      exact hs
  · have hs' : (s.io i).isSubmitted = false := Bool.not_eq_true _ ▸ hs
    have heq : s.countPop i =
        { s with
          nOverwritten := s.nOverwritten + 1
          popLog := s.popLog ++ [(i, false)] } := by
      unfold RedoState.countPop
      rw [if_neg hs]
    rw [heq]
    exact ⟨rfl, rfl, rfl, rfl, rfl, rfl, rfl, rfl, rfl, rfl, rfl, rfl,
      fun _ => ⟨rfl, rfl, id⟩, by simp [hs'], fun h => absurd h hs,
      by simp [hs'], by simp [hs']⟩

/-- The flush before waiting on an unsubmitted, live IO: a
`scheduleIos` / `submitIos` round (or nothing). -/
theorem flushIfNeeded_props (s : RedoState) (i : Nat) :
    coreEq s (s.flushIfNeeded i) ∧
    (s.flushIfNeeded i).olSet = s.olSet ∧
    (s.flushIfNeeded i).olMaxSize = s.olMaxSize ∧
    (s.flushIfNeeded i).nPendingBlocks = s.nPendingBlocks ∧
    (s.flushIfNeeded i).nClipped = s.nClipped ∧
    ioMono s (s.flushIfNeeded i) ∧
    wlogExt s (s.flushIfNeeded i) (s.readyIoQ ++ s.submitIoQ) ∧
    (∀ j ∈ (s.flushIfNeeded i).readyIoQ, j ∈ s.readyIoQ) ∧
    (∀ j ∈ (s.flushIfNeeded i).submitIoQ,
      j ∈ s.readyIoQ ∨ j ∈ s.submitIoQ) := by
  unfold RedoState.flushIfNeeded
  split
  · obtain ⟨c1, r1, q1, o1, m1, p1, cl1, im1, wl1⟩ := scheduleIos_props s
    obtain ⟨c2, r2, q2, o2, m2, p2, cl2, im2, wl2⟩ :=
      submitIos_props s.scheduleIos
    refine ⟨coreEq_trans c1 c2, o2.trans o1, m2.trans m1, p2.trans p1,
      cl2.trans cl1, ioMono_trans im1 im2, ?_, ?_, ?_⟩
    · refine wlogExt_mono_dom (wlogExt_trans wl1 wl2 im1 im2) ?_
      intro x hx
      rcases List.mem_append.mp hx with h | h
      · exact h
      · rcases q1 x h with h' | h'
        · exact List.mem_append.mpr (Or.inl h')
        · exact List.mem_append.mpr (Or.inr h')
    · intro j hj
      rw [r2, r1] at hj
      simp at hj
    · intro j hj
      rw [q2] at hj
      simp at hj
  · exact ⟨coreEq_refl _, rfl, rfl, rfl, rfl, ioMono_refl _,
      wlogExt_refl _ _, fun _ hj => hj, fun _ hj => Or.inr hj⟩

/-- Deleting a popped IO from the overlap map and promoting the freed
IOs to `readyIoQ_`. -/
theorem delAndPromote_props (s : RedoState) (i : Nat) :
    coreEq s (s.delAndPromote i) ∧
    (s.delAndPromote i).submitIoQ = s.submitIoQ ∧
    (s.delAndPromote i).writeLog = s.writeLog ∧
    (s.delAndPromote i).nPendingBlocks = s.nPendingBlocks ∧
    (s.delAndPromote i).nClipped = s.nClipped ∧
    (∀ k, ((s.delAndPromote i).io k).offset = (s.io k).offset ∧
      ((s.delAndPromote i).io k).size = (s.io k).size ∧
      ((s.delAndPromote i).io k).isSubmitted = (s.io k).isSubmitted) ∧
    (∀ j ∈ (s.delAndPromote i).readyIoQ,
      j ∈ s.readyIoQ ∨ j ∈ s.olSet) ∧
    (∀ j ∈ (s.delAndPromote i).olSet, j ∈ s.olSet) := by
  have heq : s.delAndPromote i =
      (s.olDel i).2.foldl RedoState.promoteOne (s.olDel i).1 := rfl
  obtain ⟨cd, rd, qd, od, wd, pd, cld, fd, td⟩ := olDel_props s i
  obtain ⟨cp, qp, op, mp, wp, pp, clp, fp, rp⟩ :=
    promoteFold_props (s.olDel i).2 (s.olDel i).1
  rw [heq]
  refine ⟨coreEq_trans cd cp, qp.trans qd, wp.trans wd, pp.trans pd,
    clp.trans cld, ?_, ?_, ?_⟩
  · intro k
    rw [fp k]
    exact ⟨(fd k).1, (fd k).2.1, (fd k).2.2.1⟩
  · intro j hj
    rcases rp j hj with h | h
    · rw [rd] at h
      exact Or.inl h
    · exact Or.inr (List.mem_of_mem_erase (td j h))
  · intro j hj
    rw [op, od] at hj
    exact List.mem_of_mem_erase hj

/-- Properties of one completion wait (`waitForBody i rest`): the head is
popped from `ioQ_`, exactly one pop entry for it is recorded (counted in
`nWritten` only when the IO is submitted at that point), IOs evolve
monotonically, writes extend only by flushed queue entries, and the queues
and overlap set shrink into the old ones. -/
theorem waitForBody_props (s : RedoState) (i : Nat) (rest : List Nat) :
    (s.waitForBody i rest).ioQ = rest ∧
    (s.waitForBody i rest).nIos = s.nIos ∧
    (s.waitForBody i rest).queueSize = s.queueSize ∧
    (s.waitForBody i rest).blockSize = s.blockSize ∧
    (s.waitForBody i rest).deviceSize = s.deviceSize ∧
    (s.waitForBody i rest).nClipped = s.nClipped ∧
    ioMono s (s.waitForBody i rest) ∧
    wlogExt s (s.waitForBody i rest) (s.readyIoQ ++ s.submitIoQ) ∧
    (∃ b, (s.waitForBody i rest).popLog = s.popLog ++ [(i, b)] ∧
      (b = true → ((s.waitForBody i rest).io i).isSubmitted = true) ∧
      (s.waitForBody i rest).nWritten = s.nWritten + (if b then 1 else 0) ∧
      (s.waitForBody i rest).nOverwritten =
        s.nOverwritten + (if b then 0 else 1)) ∧
    (∀ j ∈ (s.waitForBody i rest).readyIoQ,
      j ∈ s.readyIoQ ∨ j ∈ s.olSet) ∧
    (∀ j ∈ (s.waitForBody i rest).submitIoQ,
      j ∈ s.readyIoQ ∨ j ∈ s.submitIoQ) ∧
    (∀ j ∈ (s.waitForBody i rest).olSet, j ∈ s.olSet) := by
  have heq : s.waitForBody i rest =
      ((((s.popHead rest).flushIfNeeded i).countPop i).releasePending
        i).delAndPromote i := rfl
  obtain ⟨c1, o1, m1, p1, cl1, im1, wl1, r1, q1⟩ :=
    flushIfNeeded_props (s.popHead rest) i
  obtain ⟨iq2, n2, qs2, b2, d2, r2, q2, o2, m2, w2, p2, cl2, im2, pl2,
    sb2, nw2, no2⟩ := countPop_props ((s.popHead rest).flushIfNeeded i) i
  obtain ⟨c3, q3, w3, p3, cl3, f3, r3, o3⟩ := delAndPromote_props
    ((((s.popHead rest).flushIfNeeded i).countPop i).releasePending i) i
  set s0 : RedoState := s.popHead rest with hs0
  set s1 : RedoState := s0.flushIfNeeded i with hs1
  set s2 : RedoState := s1.countPop i with hs2
  set s3 : RedoState := s2.releasePending i with hs3
  have h3r : s3.readyIoQ = s2.readyIoQ := rfl
  have h3q : s3.submitIoQ = s2.submitIoQ := rfl
  have h3o : s3.olSet = s2.olSet := rfl
  have hio3 : s3.io = s2.io := rfl
  have him3 : ioMono s2 s3 := fun _ => ⟨rfl, rfl, id⟩
  have him01 : ioMono s s1 := im1
  have him12 : ioMono s1 s2 := im2
  have him23t : ioMono s2 (s3.delAndPromote i) := by
    intro j
    exact ⟨(f3 j).1, (f3 j).2.1, fun h => ((f3 j).2.2).trans h⟩
  have himt : ioMono s (s3.delAndPromote i) :=
    ioMono_trans him01 (ioMono_trans him12 him23t)
  rw [heq]
  refine ⟨?_, ?_, ?_, ?_, ?_, ?_, himt, ?_, ?_, ?_, ?_, ?_⟩
  · exact (c3.1).trans (iq2.trans c1.1)
  · exact (c3.2.2.1).trans (n2.trans c1.2.2.1)
  · exact (c3.2.2.2.2.2.1).trans (qs2.trans c1.2.2.2.2.2.1)
  · exact (c3.2.2.2.2.2.2.1).trans (b2.trans c1.2.2.2.2.2.2.1)
  · exact (c3.2.2.2.2.2.2.2).trans (d2.trans c1.2.2.2.2.2.2.2)
  · exact cl3.trans (cl2.trans cl1)
  · obtain ⟨tl, htl, hp⟩ := wl1
    refine ⟨tl, ?_, ?_⟩
    · calc (s3.delAndPromote i).writeLog = s2.writeLog := w3
        _ = s1.writeLog := w2
        _ = s0.writeLog ++ tl := htl
        _ = s.writeLog ++ tl := rfl
    · intro e he
      obtain ⟨hd, hsb, ho, hz⟩ := hp e he
      exact ⟨hd, (him23t e.ioId).2.2 ((him12 e.ioId).2.2 hsb), ho, hz⟩
  · refine ⟨(s1.io i).isSubmitted, ?_, ?_, ?_, ?_⟩
    · calc (s3.delAndPromote i).popLog = s2.popLog := c3.2.1
        _ = s1.popLog ++ [(i, (s1.io i).isSubmitted)] := pl2
        _ = s.popLog ++ [(i, (s1.io i).isSubmitted)] := by
            rw [c1.2.1]; rfl
    · intro hb
      exact (him23t i).2.2 (sb2 hb)
    · calc (s3.delAndPromote i).nWritten = s2.nWritten := c3.2.2.2.1
        _ = s1.nWritten + (if (s1.io i).isSubmitted then 1 else 0) := nw2
        _ = s.nWritten + (if (s1.io i).isSubmitted then 1 else 0) := by
            rw [c1.2.2.2.1]; rfl
    · calc (s3.delAndPromote i).nOverwritten = s2.nOverwritten :=
          c3.2.2.2.2.1
        _ = s1.nOverwritten + (if (s1.io i).isSubmitted then 0 else 1) :=
          no2
        _ = s.nOverwritten + (if (s1.io i).isSubmitted then 0 else 1) := by
            rw [c1.2.2.2.2.1]; rfl
  · intro j hj
    rcases r3 j hj with h | h
    · rw [h3r, r2] at h
      exact Or.inl (r1 j h)
    · rw [h3o, o2, o1] at h
      exact Or.inr h
  · intro j hj
    rw [q3, h3q, q2] at hj
    exact q1 j hj
  · intro j hj
    have h := o3 j hj
    rw [h3o, o2, o1] at h
    exact h

/-- A fold preserves an invariant that every step preserves. -/
theorem foldl_inv_mem {α β : Type} (P : β → Prop) (f : β → α → β) :
    ∀ (l : List α) (b : β), P b →
      (∀ x a, a ∈ l → P x → P (f x a)) → P (l.foldl f b) := by
  intro l
  induction l with
  | nil => exact fun b hb _ => hb
  | cons a l ih =>
    intro b hb hf
    exact ih (f b a) (hf b a (List.mem_cons_self a l) hb)
      (fun x a' ha' hx => hf x a' (List.mem_cons_of_mem a ha') hx)

/-- The bookkeeping invariant holds in a fresh applyer state. -/
theorem machInv_init (qs bs ds : Nat) : MachInv (RedoState.init qs bs ds) :=
  ⟨fun e he => absurd he (List.not_mem_nil e),
   fun p hp => absurd hp (List.not_mem_nil p),
   rfl, rfl,
   fun i hi => absurd hi (Nat.not_lt_zero i),
   fun j hj => absurd hj (List.not_mem_nil j),
   fun j hj => absurd hj (List.not_mem_nil j),
   fun j hj => absurd hj (List.not_mem_nil j),
   fun j hj => absurd hj (List.not_mem_nil j)⟩

/-- The bookkeeping invariant is preserved by any operation that keeps the
core fields, evolves IOs monotonically, extends the write log only by
entries for already created ids, and moves queue entries around. -/
theorem machInv_of_core {s t : RedoState} {dom : List Nat}
    (h : MachInv s) (hc : coreEq s t) (hm : ioMono s t)
    (hw : wlogExt s t dom) (hdom : ∀ x ∈ dom, x < s.nIos)
    (hr : ∀ j ∈ t.readyIoQ, j ∈ s.readyIoQ ∨ j ∈ s.olSet)
    (hq : ∀ j ∈ t.submitIoQ, j ∈ s.readyIoQ ∨ j ∈ s.submitIoQ)
    (ho : ∀ j ∈ t.olSet, j ∈ s.olSet) : MachInv t := by
  obtain ⟨h1, h2, h3, h4, h5, h6, h7, h8, h9⟩ := h
  obtain ⟨hcq, hcp, hcn, hcw, hco, -, -, -⟩ := hc
  obtain ⟨tl, hte, htp⟩ := hw
  refine ⟨?_, ?_, ?_, ?_, ?_, ?_, ?_, ?_, ?_⟩
  · intro e he
    rw [hte] at he
    rw [hcn]
    rcases List.mem_append.mp he with hh | hh
    · exact ⟨(hm e.ioId).2.2 (h1 e hh).1, (h1 e hh).2⟩
    · obtain ⟨hd, hsub, -, -⟩ := htp e hh
      exact ⟨hsub, hdom _ hd⟩
  · intro p hp
    rw [hcp] at hp
    rw [hcn]
    exact ⟨fun hb => (hm p.1).2.2 ((h2 p hp).1 hb), (h2 p hp).2⟩
  · rw [hcw, hcp]; exact h3
  · rw [hco, hcp]; exact h4
  · intro i hi
    rw [hcn] at hi
    rcases h5 i hi with hh | hh
    · exact Or.inl (by rw [hcq]; exact hh)
    · exact Or.inr (by rw [hcp]; exact hh)
  · intro j hj
    rw [hcq] at hj
    rw [hcn]
    exact h6 j hj
  · intro j hj
    rw [hcn]
    rcases hr j hj with hh | hh
    · exact h7 j hh
    · exact h9 j hh
  · intro j hj
    rw [hcn]
    rcases hq j hj with hh | hh
    · exact h7 j hh
    · exact h8 j hh
  · intro j hj
    rw [hcn]
    exact h9 j (ho j hj)

/-- `submitIos` preserves the bookkeeping invariant. -/
theorem machInv_submitIos {s : RedoState} (h : MachInv s) :
    MachInv s.submitIos := by
  obtain ⟨c, r, q, o, m, p, cl, im, wl⟩ := submitIos_props s
  refine machInv_of_core h c im wl ?_ ?_ ?_ ?_
  · exact fun x hx => h.2.2.2.2.2.2.2.1 x hx
  · intro j hj
    rw [r] at hj
    exact Or.inl hj
  · intro j hj
    rw [q] at hj
    exact absurd hj (List.not_mem_nil j)
  · intro j hj
    rw [o] at hj
    exact hj

/-- `scheduleIos` preserves the bookkeeping invariant. -/
theorem machInv_scheduleIos {s : RedoState} (h : MachInv s) :
    MachInv s.scheduleIos := by
  obtain ⟨c, r, q, o, m, p, cl, im, wl⟩ := scheduleIos_props s
  refine machInv_of_core h c im wl ?_ ?_ ?_ ?_
  · intro x hx
    rcases List.mem_append.mp hx with hh | hh
    · exact h.2.2.2.2.2.2.1 x hh
    · exact h.2.2.2.2.2.2.2.1 x hh
  · intro j hj
    rw [r] at hj
    exact absurd hj (List.not_mem_nil j)
  · exact q
  · intro j hj
    rw [o] at hj
    exact hj

/-- One completion wait preserves the bookkeeping invariant. -/
theorem machInv_waitFor {s : RedoState} (h : MachInv s) :
    MachInv s.waitForAnIoCompletion := by
  cases hq : s.ioQ with
  | nil =>
    unfold RedoState.waitForAnIoCompletion
    rw [hq]
    exact h
  | cons i rest =>
    rw [waitFor_eq_body s i rest hq]
    obtain ⟨hioq, hnios, hqsz, hbs, hds, hcl, him, hwl,
      ⟨b, hpl, hsb, hnw, hno⟩, hr, hsq, hol⟩ := waitForBody_props s i rest
    obtain ⟨h1, h2, h3, h4, h5, h6, h7, h8, h9⟩ := h
    have hilt : i < s.nIos := h6 i (by rw [hq]; exact List.mem_cons_self i rest)
    obtain ⟨tl, hte, htp⟩ := hwl
    refine ⟨?_, ?_, ?_, ?_, ?_, ?_, ?_, ?_, ?_⟩
    · intro e he
      rw [hte] at he
      rw [hnios]
      rcases List.mem_append.mp he with hh | hh
      · exact ⟨(him e.ioId).2.2 (h1 e hh).1, (h1 e hh).2⟩
      · obtain ⟨hd, hsub, -, -⟩ := htp e hh
        rcases List.mem_append.mp hd with hh' | hh'
        · exact ⟨hsub, h7 _ hh'⟩
        · exact ⟨hsub, h8 _ hh'⟩
    · intro p hp
      rw [hpl] at hp
      rw [hnios]
      rcases List.mem_append.mp hp with hh | hh
      · exact ⟨fun hb => (him p.1).2.2 ((h2 p hh).1 hb), (h2 p hh).2⟩
      · simp only [List.mem_singleton] at hh
        subst hh
        exact ⟨fun hb => hsb hb, hilt⟩
    · rw [hnw, hpl, h3, List.filter_append]
      cases b <;> simp
    · rw [hno, hpl, h4, List.filter_append]
      cases b <;> simp
    · intro k hk
      rw [hnios] at hk
      rcases h5 k hk with hh | hh
      · rw [hq] at hh
        rcases List.mem_cons.mp hh with hh' | hh'
        · subst hh'
          refine Or.inr ⟨b, ?_⟩
          rw [hpl]
          exact List.mem_append.mpr (Or.inr (List.mem_singleton.mpr rfl))
        · exact Or.inl (by rw [hioq]; exact hh')
      · obtain ⟨b', hb'⟩ := hh
        refine Or.inr ⟨b', ?_⟩
        rw [hpl]
        exact List.mem_append.mpr (Or.inl hb')
    · intro j hj
      rw [hioq] at hj
      rw [hnios]
      exact h6 j (by rw [hq]; exact List.mem_cons_of_mem i hj)
    · intro j hj
      rw [hnios]
      rcases hr j hj with hh | hh
      · exact h7 j hh
      · exact h9 j hh
    · intro j hj
      rw [hnios]
      rcases hsq j hj with hh | hh
      · exact h7 j hh
      · exact h8 j hh
    · intro j hj
      rw [hnios]
      exact h9 j (hol j hj)

/-- Repeated waits preserve the bookkeeping invariant. -/
theorem machInv_waitAll (n : Nat) : ∀ s : RedoState, MachInv s →
    MachInv (RedoState.waitAll n s) := by
  induction n with
  | zero => exact fun s h => h
  | succ n ih =>
    intro s h
    exact ih s.waitForAnIoCompletion (machInv_waitFor h)

/-- Waiting as many times as `ioQ_` is long drains it completely. -/
theorem waitAll_ioQ (n : Nat) : ∀ s : RedoState, s.ioQ.length ≤ n →
    (RedoState.waitAll n s).ioQ = [] := by
  induction n with
  | zero =>
    intro s h
    exact List.eq_nil_of_length_eq_zero (Nat.le_zero.mp h)
  | succ n ih =>
    intro s h
    show (RedoState.waitAll n s.waitForAnIoCompletion).ioQ = []
    cases hq : s.ioQ with
    | nil =>
      have hid : s.waitForAnIoCompletion = s := by
        unfold RedoState.waitForAnIoCompletion
        rw [hq]
      apply ih
      rw [hid, hq]
      exact Nat.zero_le n
    | cons i rest =>
      apply ih
      rw [waitFor_eq_body s i rest hq, (waitForBody_props s i rest).1]
      have hlen : s.ioQ.length = rest.length + 1 := by rw [hq]; rfl
      omega

/-- The enqueue step of `prepareIos`: the fresh id `nIos` is appended to
`ioQ_` and the overlap set (and possibly `readyIoQ_`), the pop / write logs
and the counters are untouched, and existing IOs keep their offset, size
and submission state; the fresh IO carries the new request's offset and
size. -/
theorem prepareOne_props (acc : RedoState) (iop : RIo) :
    (acc.prepareOne iop).nIos = acc.nIos + 1 ∧
    (acc.prepareOne iop).ioQ = acc.ioQ ++ [acc.nIos] ∧
    (acc.prepareOne iop).popLog = acc.popLog ∧
    (acc.prepareOne iop).writeLog = acc.writeLog ∧
    (acc.prepareOne iop).nWritten = acc.nWritten ∧
    (acc.prepareOne iop).nOverwritten = acc.nOverwritten ∧
    (acc.prepareOne iop).queueSize = acc.queueSize ∧
    (acc.prepareOne iop).blockSize = acc.blockSize ∧
    (acc.prepareOne iop).deviceSize = acc.deviceSize ∧
    (acc.prepareOne iop).nClipped = acc.nClipped ∧
    (acc.prepareOne iop).olSet = acc.olSet ++ [acc.nIos] ∧
    (∀ j ∈ (acc.prepareOne iop).readyIoQ,
      j ∈ acc.readyIoQ ∨ j = acc.nIos) ∧
    (acc.prepareOne iop).submitIoQ = acc.submitIoQ ∧
    (∀ k, k ≠ acc.nIos →
      ((acc.prepareOne iop).io k).offset = (acc.io k).offset ∧
      ((acc.prepareOne iop).io k).size = (acc.io k).size ∧
      ((acc.prepareOne iop).io k).isSubmitted = (acc.io k).isSubmitted) ∧
    ((acc.prepareOne iop).io acc.nIos).offset = iop.offset ∧
    ((acc.prepareOne iop).io acc.nIos).size = iop.size := by
  obtain ⟨c2, r2, q2, o2, w2, p2, cl2, f2⟩ :=
    olIns_props ({ acc.setIo acc.nIos iop with nIos := acc.nIos + 1 })
      acc.nIos
  set acc1 : RedoState :=
    { acc.setIo acc.nIos iop with nIos := acc.nIos + 1 } with hacc1
  set acc2 : RedoState := acc1.olIns acc.nIos with hacc2
  have ha1 : ∀ k, acc1.io k = if k = acc.nIos then iop else acc.io k :=
    fun k => RedoState.io_setIo acc acc.nIos iop k
  have he : acc.prepareOne iop =
      { (if (acc2.io acc.nIos).nOverlapped = 0 then
          ({ acc2 with readyIoQ := acc2.readyIoQ ++ [acc.nIos] } : RedoState)
        else acc2) with
        ioQ := (if (acc2.io acc.nIos).nOverlapped = 0 then
          ({ acc2 with readyIoQ := acc2.readyIoQ ++ [acc.nIos] } : RedoState)
        else acc2).ioQ ++ [acc.nIos] } := rfl
  have hfk : ∀ k, k ≠ acc.nIos →
      ((acc2.io k).offset = (acc.io k).offset ∧
       (acc2.io k).size = (acc.io k).size ∧
       (acc2.io k).isSubmitted = (acc.io k).isSubmitted) := by
    intro k hk
    have hk1 : acc1.io k = acc.io k := by rw [ha1 k, if_neg hk]
    exact ⟨(f2 k).1.trans (by rw [hk1]), (f2 k).2.1.trans (by rw [hk1]),
      (f2 k).2.2.trans (by rw [hk1])⟩
  have hffr : (acc2.io acc.nIos).offset = iop.offset ∧
      (acc2.io acc.nIos).size = iop.size := by
    have hk2 : acc1.io acc.nIos = iop := by rw [ha1, if_pos rfl]
    exact ⟨(f2 acc.nIos).1.trans (by rw [hk2]),
      (f2 acc.nIos).2.1.trans (by rw [hk2])⟩
  by_cases hz : (acc2.io acc.nIos).nOverlapped = 0
  · rw [he, if_pos hz]
    refine ⟨c2.2.2.1, congrArg (· ++ [acc.nIos]) c2.1, c2.2.1, w2,
      c2.2.2.2.1, c2.2.2.2.2.1, c2.2.2.2.2.2.1, c2.2.2.2.2.2.2.1,
      c2.2.2.2.2.2.2.2, cl2, o2, ?_, q2, hfk, hffr.1, hffr.2⟩
    intro j hj
    rcases List.mem_append.mp hj with hh | hh
    · rw [r2] at hh
      exact Or.inl hh
    · simp only [List.mem_singleton] at hh
      exact Or.inr hh
  · rw [he, if_neg hz]
    refine ⟨c2.2.2.1, congrArg (· ++ [acc.nIos]) c2.1, c2.2.1, w2,
      c2.2.2.2.1, c2.2.2.2.2.1, c2.2.2.2.2.2.1, c2.2.2.2.2.2.2.1,
      c2.2.2.2.2.2.2.2, cl2, o2, ?_, q2, hfk, hffr.1, hffr.2⟩
    intro j hj
    rw [r2] at hj
    exact Or.inl hj

/-- The enqueue step of `prepareIos` preserves the bookkeeping invariant:
the fresh IO enters `ioQ_` immediately. -/
theorem machInv_prepareOne (acc : RedoState) (iop : RIo) (h : MachInv acc) :
    MachInv (acc.prepareOne iop) := by
  obtain ⟨hn, hq, hp, hw, hnw, hno, -, -, -, -, ho, hr, hsq, hio, -, -⟩ :=
    prepareOne_props acc iop
  obtain ⟨h1, h2, h3, h4, h5, h6, h7, h8, h9⟩ := h
  refine ⟨?_, ?_, ?_, ?_, ?_, ?_, ?_, ?_, ?_⟩
  · intro e he
    rw [hw] at he
    have hlt : e.ioId < acc.nIos := (h1 e he).2
    refine ⟨?_, by rw [hn]; omega⟩
    rw [(hio e.ioId (Nat.ne_of_lt hlt)).2.2]
    exact (h1 e he).1
  · intro p hp'
    rw [hp] at hp'
    have hlt : p.1 < acc.nIos := (h2 p hp').2
    refine ⟨?_, by rw [hn]; omega⟩
    intro hb
    rw [(hio p.1 (Nat.ne_of_lt hlt)).2.2]
    exact (h2 p hp').1 hb
  · rw [hnw, hp]; exact h3
  · rw [hno, hp]; exact h4
  · intro k hk
    rw [hn] at hk
    by_cases hke : k = acc.nIos
    · subst hke
      exact Or.inl (by
        rw [hq]
        exact List.mem_append.mpr (Or.inr (List.mem_singleton.mpr rfl)))
    · have hlt : k < acc.nIos := by omega
      rcases h5 k hlt with hh | hh
      · exact Or.inl (by rw [hq]; exact List.mem_append.mpr (Or.inl hh))
      · exact Or.inr (by rw [hp]; exact hh)
  · intro j hj
    rw [hq] at hj
    rw [hn]
    rcases List.mem_append.mp hj with hh | hh
    · exact Nat.lt_succ_of_lt (h6 j hh)
    · simp only [List.mem_singleton] at hh
      omega
  · intro j hj
    rw [hn]
    rcases hr j hj with hh | hh
    · exact Nat.lt_succ_of_lt (h7 j hh)
    · omega
  · intro j hj
    rw [hsq] at hj
    rw [hn]
    exact Nat.lt_succ_of_lt (h8 j hj)
  · intro j hj
    rw [ho] at hj
    rw [hn]
    rcases List.mem_append.mp hj with hh | hh
    · exact Nat.lt_succ_of_lt (h9 j hh)
    · simp only [List.mem_singleton] at hh
      omega

/-- The waiting loop of `prepareIos` preserves the bookkeeping invariant. -/
theorem machInv_prepareWaitLoop (fuel nBlocks : Nat) :
    ∀ s : RedoState, MachInv s →
      MachInv (RedoState.prepareWaitLoop fuel nBlocks s) := by
  induction fuel with
  | zero => exact fun s h => h
  | succ fuel ih =>
    intro s h
    show MachInv (if s.ioQ.isEmpty then s
      else if s.queueSize < s.nPendingBlocks + nBlocks then
        RedoState.prepareWaitLoop fuel nBlocks s.waitForAnIoCompletion
      else s)
    split
    · exact h
    · split
      · exact ih _ (machInv_waitFor h)
      · exact h

/-- `prepareIos` preserves the bookkeeping invariant. -/
theorem machInv_prepareIos (s : RedoState) (newIos : List RIo)
    (nBlocks : Nat) (h : MachInv s) :
    MachInv (s.prepareIos newIos nBlocks) := by
  have h1 : MachInv (RedoState.prepareWaitLoop s.ioQ.length nBlocks s) :=
    machInv_prepareWaitLoop s.ioQ.length nBlocks s h
  exact foldl_inv_mem MachInv RedoState.prepareOne newIos _ h1
    (fun x a _ hx => machInv_prepareOne x a hx)

/-- A machine-level redo run satisfies the bookkeeping invariant and ends
with `ioQ_` drained. -/
theorem machInv_runRedoIos (qs bs ds : Nat) (groups : List (List RIo)) :
    MachInv (runRedoIos qs bs ds groups) ∧
    (runRedoIos qs bs ds groups).ioQ = [] := by
  have hfold : MachInv (groups.foldl
      (fun acc g => (acc.prepareIos g g.length).scheduleIos)
      (RedoState.init qs bs ds)) :=
    foldl_inv_mem MachInv _ groups _ (machInv_init qs bs ds)
      (fun x g _ hx =>
        machInv_scheduleIos (machInv_prepareIos x g g.length hx))
  set s1 : RedoState := groups.foldl
    (fun acc g => (acc.prepareIos g g.length).scheduleIos)
    (RedoState.init qs bs ds) with hs1
  have hsub : MachInv s1.submitIos := machInv_submitIos hfold
  constructor
  · exact machInv_waitAll s1.submitIos.ioQ.length s1.submitIos hsub
  · exact waitAll_ioQ s1.submitIos.ioQ.length s1.submitIos (Nat.le_refl _)

set_option maxRecDepth 2000000 in
/-- C4: in any redo replay whose final state shows IO `X` fully overwritten
and never submitted (the overwrite hit before submission; submission is
irrevocable), the device receives zero physical writes for `X` (no write-log
entry carries its id), `X` is popped exactly as an overwritten IO — counted
in `n_overwritten`, never in `n_written` — and the two counters are exactly
the tallies of the overwritten / written pops; in the concrete two-equal-
range-IO case the run ends with `n_overwritten = 1`, `n_written = 1`, and
the device write holds the later IO's bytes. -/
theorem redo_overwrite_elision (qs bs ds : Nat) (groups : List (List RIo))
    (X : Nat) (hlt : X < (runRedoIos qs bs ds groups).nIos)
    (hov : ((runRedoIos qs bs ds groups).io X).isOverwritten = true)
    (hns : ((runRedoIos qs bs ds groups).io X).isSubmitted = false) :
    (∀ e ∈ (runRedoIos qs bs ds groups).writeLog, e.ioId ≠ X) ∧
    (X, false) ∈ (runRedoIos qs bs ds groups).popLog ∧
    (∀ b, (X, b) ∈ (runRedoIos qs bs ds groups).popLog → b = false) ∧
    (runRedoIos qs bs ds groups).nWritten =
      ((runRedoIos qs bs ds groups).popLog.filter (fun p => p.2)).length ∧
    (runRedoIos qs bs ds groups).nOverwritten =
      ((runRedoIos qs bs ds groups).popLog.filter (fun p => !p.2)).length ∧
    (runRedoIos 64 512 4096
      [[{ offset := 0, size := 512,
          blocks := [⟨100, List.replicate 512 80⟩] }],
       [{ offset := 0, size := 512,
          blocks := [⟨700, List.replicate 512 81⟩] }]]).nOverwritten = 1 ∧
    (runRedoIos 64 512 4096
      [[{ offset := 0, size := 512,
          blocks := [⟨100, List.replicate 512 80⟩] }],
       [{ offset := 0, size := 512,
          blocks := [⟨700, List.replicate 512 81⟩] }]]).nWritten = 1 ∧
    (runRedoIos 64 512 4096
      [[{ offset := 0, size := 512,
          blocks := [⟨100, List.replicate 512 80⟩] }],
       [{ offset := 0, size := 512,
          blocks := [⟨700, List.replicate 512 81⟩] }]]).writeLog =
      [⟨1, 0, 512, List.replicate 512 81⟩] := by
  obtain ⟨hinv, hioq⟩ := machInv_runRedoIos qs bs ds groups
  obtain ⟨h1, h2, h3, h4, h5, -, -, -, -⟩ := hinv
  have hnotw : ∀ b, (X, b) ∈ (runRedoIos qs bs ds groups).popLog →
      b = false := by
    intro b hb
    cases b with
    | false => rfl
    | true =>
      have := (h2 (X, true) hb).1 rfl
      rw [hns] at this
      exact absurd this (by decide)
  refine ⟨?_, ?_, hnotw, h3, h4, ?_, ?_, ?_⟩
  · intro e he heq
    have := (h1 e he).1
    rw [heq, hns] at this
    exact absurd this (by decide)
  · rcases h5 X hlt with hh | hh
    · rw [hioq] at hh
      exact absurd hh (List.not_mem_nil X)
    · obtain ⟨b, hb⟩ := hh
      have := hnotw b hb
      subst this
      exact hb
  · decide
  · decide
  · decide

set_option maxRecDepth 2000000 in
/-- Witness for C4 at the concrete two-IO scenario (the later equal-range
IO overwrites the earlier one before submission): the hypotheses hold for
`X = 0`, and the earlier IO is popped as overwritten. -/
theorem redo_overwrite_elision_witness :
    0 < (runRedoIos 64 512 4096
      [[{ offset := 0, size := 512,
          blocks := [⟨100, List.replicate 512 80⟩] }],
       [{ offset := 0, size := 512,
          blocks := [⟨700, List.replicate 512 81⟩] }]]).nIos ∧
    ((runRedoIos 64 512 4096
      [[{ offset := 0, size := 512,
          blocks := [⟨100, List.replicate 512 80⟩] }],
       [{ offset := 0, size := 512,
          blocks := [⟨700, List.replicate 512 81⟩] }]]).io 0).isOverwritten
      = true ∧
    ((runRedoIos 64 512 4096
      [[{ offset := 0, size := 512,
          blocks := [⟨100, List.replicate 512 80⟩] }],
       [{ offset := 0, size := 512,
          blocks := [⟨700, List.replicate 512 81⟩] }]]).io 0).isSubmitted
      = false ∧
    (0, false) ∈ (runRedoIos 64 512 4096
      [[{ offset := 0, size := 512,
          blocks := [⟨100, List.replicate 512 80⟩] }],
       [{ offset := 0, size := 512,
          blocks := [⟨700, List.replicate 512 81⟩] }]]).popLog :=
  ⟨by decide, by decide, by decide,
   (redo_overwrite_elision 64 512 4096
     [[{ offset := 0, size := 512,
         blocks := [⟨100, List.replicate 512 80⟩] }],
      [{ offset := 0, size := 512,
         blocks := [⟨700, List.replicate 512 81⟩] }]] 0
     (by decide) (by decide) (by decide)).2.1⟩

/-- The clip-safety invariant is preserved by any operation that keeps IO
offsets / sizes and the device size and extends the write log only by
entries copying an IO's offset and size. -/
theorem bInv_step {s t : RedoState} {dom : List Nat} (h : BInv s)
    (hm : ∀ j, (t.io j).offset = (s.io j).offset ∧
      (t.io j).size = (s.io j).size)
    (hd : t.deviceSize = s.deviceSize) (hw : wlogExt s t dom) : BInv t := by
  obtain ⟨h1, h2⟩ := h
  obtain ⟨tl, hte, htp⟩ := hw
  refine ⟨fun j => ?_, fun e hme => ?_⟩
  · rw [(hm j).1, (hm j).2, hd]
    exact h1 j
  · rw [hte] at hme
    rw [hd]
    rcases List.mem_append.mp hme with hh | hh
    · exact h2 e hh
    · obtain ⟨-, -, ho, hz⟩ := htp e hh
      rw [ho, hz]
      exact h1 e.ioId

/-- `submitIos` preserves the clip-safety invariant. -/
theorem bInv_submitIos {s : RedoState} (h : BInv s) : BInv s.submitIos := by
  obtain ⟨c, -, -, -, -, -, -, im, wl⟩ := submitIos_props s
  exact bInv_step h (fun j => ⟨(im j).1, (im j).2.1⟩) c.2.2.2.2.2.2.2 wl

/-- `scheduleIos` preserves the clip-safety invariant. -/
theorem bInv_scheduleIos {s : RedoState} (h : BInv s) :
    BInv s.scheduleIos := by
  obtain ⟨c, -, -, -, -, -, -, im, wl⟩ := scheduleIos_props s
  exact bInv_step h (fun j => ⟨(im j).1, (im j).2.1⟩) c.2.2.2.2.2.2.2 wl

/-- One completion wait keeps the device size. -/
theorem waitFor_deviceSize (s : RedoState) :
    s.waitForAnIoCompletion.deviceSize = s.deviceSize := by
  cases hq : s.ioQ with
  | nil =>
    have hid : s.waitForAnIoCompletion = s := by
      unfold RedoState.waitForAnIoCompletion
      rw [hq]
    rw [hid]
  | cons i rest =>
    rw [waitFor_eq_body s i rest hq]
    exact (waitForBody_props s i rest).2.2.2.2.1

/-- One completion wait preserves the clip-safety invariant. -/
theorem bInv_waitFor {s : RedoState} (h : BInv s) :
    BInv s.waitForAnIoCompletion := by
  cases hq : s.ioQ with
  | nil =>
    have hid : s.waitForAnIoCompletion = s := by
      unfold RedoState.waitForAnIoCompletion
      rw [hq]
    rw [hid]
    exact h
  | cons i rest =>
    rw [waitFor_eq_body s i rest hq]
    obtain ⟨-, -, -, -, hds, -, him, hwl, -, -, -, -⟩ :=
      waitForBody_props s i rest
    exact bInv_step h (fun j => ⟨(him j).1, (him j).2.1⟩) hds hwl

/-- Repeated waits preserve the clip-safety invariant. -/
theorem bInv_waitAll (n : Nat) : ∀ s : RedoState, BInv s →
    BInv (RedoState.waitAll n s) := by
  induction n with
  | zero => exact fun s h => h
  | succ n ih => exact fun s h => ih _ (bInv_waitFor h)

/-- Repeated waits keep the device size. -/
theorem waitAll_deviceSize (n : Nat) : ∀ s : RedoState,
    (RedoState.waitAll n s).deviceSize = s.deviceSize := by
  induction n with
  | zero => exact fun _ => rfl
  | succ n ih =>
    intro s
    exact (ih s.waitForAnIoCompletion).trans (waitFor_deviceSize s)

/-- A successful `Io::canMerge` means the target ranges are adjacent. -/
theorem rioCanMerge_adjacent (io0 io1 : RIo) (h : io0.canMerge io1 = true) :
    io0.offset + io0.size = io1.offset := by
  unfold RIo.canMerge at h
  split_ifs at h with h1 h2
  · simp only [bne_iff_ne, not_not] at h2
    exact h2

/-- Coalescing into the staging queue preserves the in-device bound of
every queued IO: a merged IO ends exactly where the newly added one did. -/
theorem ioQueueAdd_end_bound (q : List RIo) (iop : RIo) (ds : Nat)
    (hq : ∀ x ∈ q, x.offset + x.size ≤ ds)
    (hi : iop.offset + iop.size ≤ ds) :
    ∀ x ∈ IoQueue.add q iop, x.offset + x.size ≤ ds := by
  cases hget : q.getLast? with
  | none =>
    have he : IoQueue.add q iop = [iop] := by
      unfold IoQueue.add
      rw [hget]
    rw [he]
    intro x hx
    simp only [List.mem_singleton] at hx
    subst hx
    exact hi
  | some back =>
    cases hmer : IoQueue.tryMerge back iop with
    | none =>
      have he : IoQueue.add q iop = q ++ [iop] := by
        unfold IoQueue.add
        rw [hget]
        dsimp only
        rw [hmer]
      rw [he]
      intro x hx
      rcases List.mem_append.mp hx with hh | hh
      · exact hq x hh
      · simp only [List.mem_singleton] at hh
        subst hh
        exact hi
    | some m =>
      have he : IoQueue.add q iop = q.dropLast ++ [m] := by
        unfold IoQueue.add
        rw [hget]
        dsimp only
        rw [hmer]
      rw [he]
      intro x hx
      rcases List.mem_append.mp hx with hh | hh
      · exact hq x (List.mem_of_mem_dropLast hh)
      · simp only [List.mem_singleton] at hh
        rw [hh]
        have hm : m.offset + m.size = iop.offset + iop.size := by
          unfold IoQueue.tryMerge at hmer
          split at hmer
          · simp at hmer
          · unfold RIo.tryMerge at hmer
            split at hmer
            · rename_i hcm
              simp only [Option.some.injEq] at hmer
              subst hmer
              have hadj := rioCanMerge_adjacent back iop hcm
              show back.offset + (back.size + iop.size) = _
              omega
            · simp at hmer
        rw [hm]
        exact hi

/-- The enqueue step of `prepareIos` preserves the clip-safety invariant
provided the new request targets a range inside the device. -/
theorem bInv_prepareOne (acc : RedoState) (iop : RIo) (h : BInv acc)
    (hio : iop.offset + iop.size ≤ acc.deviceSize) :
    BInv (acc.prepareOne iop) ∧
    (acc.prepareOne iop).deviceSize = acc.deviceSize := by
  obtain ⟨-, -, -, hw, -, -, -, -, hds, -, -, -, -, hfk, hfo, hfs⟩ :=
    prepareOne_props acc iop
  obtain ⟨h1, h2⟩ := h
  refine ⟨⟨fun j => ?_, fun e hme => ?_⟩, hds⟩
  · rw [hds]
    by_cases hj : j = acc.nIos
    · subst hj
      rw [hfo, hfs]
      exact hio
    · obtain ⟨ho, hz, -⟩ := hfk j hj
      rw [ho, hz]
      exact h1 j
  · rw [hw] at hme
    rw [hds]
    exact h2 e hme

/-- The waiting loop of `prepareIos` preserves the clip-safety invariant
and the device size. -/
theorem bInv_prepareWaitLoop (fuel nBlocks : Nat) :
    ∀ s : RedoState, BInv s →
      BInv (RedoState.prepareWaitLoop fuel nBlocks s) ∧
      (RedoState.prepareWaitLoop fuel nBlocks s).deviceSize =
        s.deviceSize := by
  induction fuel with
  | zero => exact fun s h => ⟨h, rfl⟩
  | succ fuel ih =>
    intro s h
    show BInv (if s.ioQ.isEmpty then s
        else if s.queueSize < s.nPendingBlocks + nBlocks then
          RedoState.prepareWaitLoop fuel nBlocks s.waitForAnIoCompletion
        else s) ∧
      (if s.ioQ.isEmpty then s
        else if s.queueSize < s.nPendingBlocks + nBlocks then
          RedoState.prepareWaitLoop fuel nBlocks s.waitForAnIoCompletion
        else s).deviceSize = s.deviceSize
    by_cases h1 : s.ioQ.isEmpty = true
    · rw [if_pos h1]
      exact ⟨h, rfl⟩
    · rw [if_neg h1]
      by_cases h2 : s.queueSize < s.nPendingBlocks + nBlocks
      · rw [if_pos h2]
        obtain ⟨hb, hd⟩ := ih s.waitForAnIoCompletion (bInv_waitFor h)
        exact ⟨hb, hd.trans (waitFor_deviceSize s)⟩
      · rw [if_neg h2]
        exact ⟨h, rfl⟩

/-- `prepareIos` preserves the clip-safety invariant and the device size
provided every new request targets a range inside the device. -/
theorem bInv_prepareIos (s : RedoState) (newIos : List RIo) (nBlocks : Nat)
    (h : BInv s) (hn : ∀ x ∈ newIos, x.offset + x.size ≤ s.deviceSize) :
    BInv (s.prepareIos newIos nBlocks) ∧
    (s.prepareIos newIos nBlocks).deviceSize = s.deviceSize := by
  obtain ⟨hb1, hd1⟩ := bInv_prepareWaitLoop s.ioQ.length nBlocks s h
  have hstep : ∀ (x : RedoState) (a : RIo), a ∈ newIos →
      BInv x ∧ x.deviceSize = s.deviceSize →
      BInv (x.prepareOne a) ∧ (x.prepareOne a).deviceSize = s.deviceSize := by
    intro x a ha hx
    obtain ⟨hbx, hdx⟩ := hx
    obtain ⟨hb2, hd2⟩ := bInv_prepareOne x a hbx (by rw [hdx]; exact hn a ha)
    exact ⟨hb2, hd2.trans hdx⟩
  exact foldl_inv_mem (fun x => BInv x ∧ x.deviceSize = s.deviceSize)
    RedoState.prepareOne newIos _ ⟨hb1, hd1⟩ hstep

/-- The per-block step of `redoNormalIo` preserves the clip-safety
invariant, the device size, and the in-device bound of every staged IO:
an out-of-range sub-IO is dropped before staging, and an in-range one
coalesces into the staging queue without leaving the device. -/
theorem redoStep_inv (rec : LogRecord) (blockS : List RBlock) (ds : Nat)
    (acc : RedoState) (tmpQ : List RIo) (nBlocks off remaining i : Nat)
    (hb : BInv acc) (hd : acc.deviceSize = ds)
    (ht : ∀ x ∈ tmpQ, x.offset + x.size ≤ ds) :
    BInv (RedoState.redoNormalStep rec blockS
      (acc, tmpQ, nBlocks, off, remaining) i).1 ∧
    (RedoState.redoNormalStep rec blockS
      (acc, tmpQ, nBlocks, off, remaining) i).1.deviceSize = ds ∧
    (∀ x ∈ (RedoState.redoNormalStep rec blockS
      (acc, tmpQ, nBlocks, off, remaining) i).2.1,
      x.offset + x.size ≤ ds) := by
  set block : RBlock := (if rec.isDiscard then
      RBlock.mk 0 (List.replicate acc.blockSize 0)
    else blockS.getD i default) with hblockdef
  set iop : RIo := { offset := off,
                     size := min acc.blockSize remaining,
                     blocks := [block] } with hiopdef
  set accD : RedoState := (if rec.isDiscard then
      { acc with nDiscard := acc.nDiscard + 1 } else acc) with haccD
  set accC : RedoState := { acc with nClipped := acc.nClipped + 1 }
    with haccC
  have he : RedoState.redoNormalStep rec blockS
      (acc, tmpQ, nBlocks, off, remaining) i =
      (if off + min acc.blockSize remaining ≤ acc.deviceSize then
        (if accD.queueSize / 2 ≤ nBlocks + 1 then
          ((accD.prepareIos (IoQueue.add tmpQ iop)
              (nBlocks + 1)).scheduleIos,
            ([] : List RIo), 0, off + min acc.blockSize remaining,
            remaining - min acc.blockSize remaining)
        else (accD, IoQueue.add tmpQ iop, nBlocks + 1,
          off + min acc.blockSize remaining,
          remaining - min acc.blockSize remaining))
      else
        (if accC.queueSize / 2 ≤ nBlocks then
          ((accC.prepareIos tmpQ nBlocks).scheduleIos, ([] : List RIo), 0,
            off + min acc.blockSize remaining,
            remaining - min acc.blockSize remaining)
        else (accC, tmpQ, nBlocks,
          off + min acc.blockSize remaining,
          remaining - min acc.blockSize remaining))) := rfl
  rw [he]
  by_cases hcl : off + min acc.blockSize remaining ≤ acc.deviceSize
  · rw [if_pos hcl]
    have hiopb : iop.offset + iop.size ≤ ds := by
      show off + min acc.blockSize remaining ≤ ds
      omega
    have ht2 : ∀ x ∈ IoQueue.add tmpQ iop, x.offset + x.size ≤ ds :=
      ioQueueAdd_end_bound tmpQ iop ds ht hiopb
    have hbD : BInv accD ∧ accD.deviceSize = ds := by
      rw [haccD]
      by_cases hdisc : rec.isDiscard = true
      · rw [if_pos hdisc]
        exact ⟨hb, hd⟩
      · rw [if_neg hdisc]
        exact ⟨hb, hd⟩
    by_cases hbatch : accD.queueSize / 2 ≤ nBlocks + 1
    · rw [if_pos hbatch]
      obtain ⟨hbp, hdp⟩ := bInv_prepareIos accD (IoQueue.add tmpQ iop)
        (nBlocks + 1) hbD.1 (fun x hx => by rw [hbD.2]; exact ht2 x hx)
      refine ⟨bInv_scheduleIos hbp, ?_, ?_⟩
      · obtain ⟨c, -, -, -, -, -, -, -, -⟩ :=
          scheduleIos_props (accD.prepareIos (IoQueue.add tmpQ iop)
            (nBlocks + 1))
        exact (c.2.2.2.2.2.2.2).trans (hdp.trans hbD.2)
      · intro x hx
        exact absurd hx (List.not_mem_nil x)
    · rw [if_neg hbatch]
      exact ⟨hbD.1, hbD.2, ht2⟩
  · rw [if_neg hcl]
    have hbC : BInv accC ∧ accC.deviceSize = ds := ⟨hb, hd⟩
    by_cases hbatch : accC.queueSize / 2 ≤ nBlocks
    · rw [if_pos hbatch]
      obtain ⟨hbp, hdp⟩ := bInv_prepareIos accC tmpQ nBlocks hbC.1
        (fun x hx => by rw [hbC.2]; exact ht x hx)
      refine ⟨bInv_scheduleIos hbp, ?_, ?_⟩
      · obtain ⟨c, -, -, -, -, -, -, -, -⟩ :=
          scheduleIos_props (accC.prepareIos tmpQ nBlocks)
        exact (c.2.2.2.2.2.2.2).trans (hdp.trans hbC.2)
      · intro x hx
        exact absurd hx (List.not_mem_nil x)
    · rw [if_neg hbatch]
      exact ⟨hbC.1, hbC.2, ht⟩

/-- `redoNormalIo` preserves the clip-safety invariant and the device
size. -/
theorem bInv_redoNormalIo (s : RedoState) (pbs : Nat) (rec : LogRecord)
    (blockS : List RBlock) (h : BInv s) :
    BInv (s.redoNormalIo pbs rec blockS) ∧
    (s.redoNormalIo pbs rec blockS).deviceSize = s.deviceSize := by
  have hfold := foldl_inv_mem
    (fun st : RedoState × List RIo × Nat × Nat × Nat =>
      BInv st.1 ∧ st.1.deviceSize = s.deviceSize ∧
      ∀ x ∈ st.2.1, x.offset + x.size ≤ s.deviceSize)
    (RedoState.redoNormalStep rec blockS)
    (List.range (rec.ioSizePb pbs))
    (s, [], 0, rec.offset * LOGICAL_BLOCK_SIZE,
      rec.ioSizeLb * LOGICAL_BLOCK_SIZE)
    ⟨h, rfl, fun x hx => absurd hx (List.not_mem_nil x)⟩
    (fun st a _ hst => by
      obtain ⟨acc, tmpQ, nb, off, rem⟩ := st
      exact redoStep_inv rec blockS s.deviceSize acc tmpQ nb off rem a
        hst.1 hst.2.1 hst.2.2)
  obtain ⟨hbf, hdf, htf⟩ := hfold
  obtain ⟨hbp, hdp⟩ := bInv_prepareIos
    ((List.range (rec.ioSizePb pbs)).foldl
      (RedoState.redoNormalStep rec blockS)
      (s, [], 0, rec.offset * LOGICAL_BLOCK_SIZE,
        rec.ioSizeLb * LOGICAL_BLOCK_SIZE)).1
    ((List.range (rec.ioSizePb pbs)).foldl
      (RedoState.redoNormalStep rec blockS)
      (s, [], 0, rec.offset * LOGICAL_BLOCK_SIZE,
        rec.ioSizeLb * LOGICAL_BLOCK_SIZE)).2.1
    ((List.range (rec.ioSizePb pbs)).foldl
      (RedoState.redoNormalStep rec blockS)
      (s, [], 0, rec.offset * LOGICAL_BLOCK_SIZE,
        rec.ioSizeLb * LOGICAL_BLOCK_SIZE)).2.2.1
    hbf (fun x hx => by rw [hdf]; exact htf x hx)
  refine ⟨bInv_scheduleIos hbp, ?_⟩
  obtain ⟨c, -, -, -, -, -, -, -, -⟩ := scheduleIos_props
    ((((List.range (rec.ioSizePb pbs)).foldl
      (RedoState.redoNormalStep rec blockS)
      (s, [], 0, rec.offset * LOGICAL_BLOCK_SIZE,
        rec.ioSizeLb * LOGICAL_BLOCK_SIZE)).1).prepareIos
      (((List.range (rec.ioSizePb pbs)).foldl
        (RedoState.redoNormalStep rec blockS)
        (s, [], 0, rec.offset * LOGICAL_BLOCK_SIZE,
          rec.ioSizeLb * LOGICAL_BLOCK_SIZE)).2.1)
      (((List.range (rec.ioSizePb pbs)).foldl
        (RedoState.redoNormalStep rec blockS)
        (s, [], 0, rec.offset * LOGICAL_BLOCK_SIZE,
          rec.ioSizeLb * LOGICAL_BLOCK_SIZE)).2.2.1))
  exact (c.2.2.2.2.2.2.2).trans (hdp.trans hdf)

/-- A normal-path redo run satisfies the clip-safety invariant and keeps
the configured device size. -/
theorem bInv_runRedoNormal (qs bs ds pbs : Nat)
    (records : List (LogRecord × List RBlock)) :
    BInv (runRedoNormal qs bs ds pbs records) ∧
    (runRedoNormal qs bs ds pbs records).deviceSize = ds := by
  have hinit : BInv (RedoState.init qs bs ds) := by
    refine ⟨fun j => ?_, fun e he => absurd he (List.not_mem_nil e)⟩
    show (0 : Nat) + 0 ≤ ds
    omega
  have hfold := foldl_inv_mem
    (fun x : RedoState => BInv x ∧ x.deviceSize = ds)
    (fun acc e => acc.redoNormalIo pbs e.1 e.2) records
    (RedoState.init qs bs ds) ⟨hinit, rfl⟩
    (fun x a _ hx => by
      obtain ⟨hb2, hd2⟩ := bInv_redoNormalIo x pbs a.1 a.2 hx.1
      exact ⟨hb2, hd2.trans hx.2⟩)
  set s1 : RedoState := records.foldl
    (fun acc e => acc.redoNormalIo pbs e.1 e.2)
    (RedoState.init qs bs ds) with hs1
  have hsub : BInv s1.submitIos := bInv_submitIos hfold.1
  have hdsub : s1.submitIos.deviceSize = ds := by
    obtain ⟨c, -, -, -, -, -, -, -, -⟩ := submitIos_props s1
    exact (c.2.2.2.2.2.2.2).trans hfold.2
  constructor
  · exact bInv_waitAll s1.submitIos.ioQ.length s1.submitIos hsub
  · exact (waitAll_deviceSize s1.submitIos.ioQ.length s1.submitIos).trans
      hdsub

set_option maxRecDepth 2000000 in
/-- C5 counterexample to the literal claim: in the S6 scenario (device of
100 LB = 51200 bytes, physical block 512 bytes, a 2-LB log write at LB
offset 99 targeting `[99..101)`), the crossing IO is NOT dropped entirely:
the run ends with `n_written = 1` (the claim says 0) because the in-range
first physical block `[99, 100)` is still written; only the out-of-range
second block is clipped, and the single write-log entry is the 512-byte
write at byte offset 50688. -/
theorem redo_clip_partial_write :
    (runRedoNormal 64 512 51200 512
      [({ isExist := true, offset := 99, io_size := 2 },
        [⟨0, List.replicate 512 7⟩,
         ⟨512, List.replicate 512 8⟩])]).nWritten = 1 ∧
    (runRedoNormal 64 512 51200 512
      [({ isExist := true, offset := 99, io_size := 2 },
        [⟨0, List.replicate 512 7⟩,
         ⟨512, List.replicate 512 8⟩])]).nClipped = 1 ∧
    (runRedoNormal 64 512 51200 512
      [({ isExist := true, offset := 99, io_size := 2 },
        [⟨0, List.replicate 512 7⟩,
         ⟨512, List.replicate 512 8⟩])]).writeLog =
      [⟨0, 50688, 512, List.replicate 512 7⟩] :=
  ⟨by decide, by decide, by decide⟩

set_option maxRecDepth 2000000 in
/-- C5 (amended): redo clipping operates on the per-physical-block sub-IOs
into which `redoNormalIo` splits each record: a sub-IO whose byte range
would extend past the device size is dropped (counted in `n_clipped`) and
never issued, while in-range sub-IOs of the same record are still written
— so every write any redo run issues stays entirely inside the device; in
the S6 scenario (100-LB device, 2-LB write at LB offset 99) the run ends
with `n_clipped = 1`, `n_written = 1`, and the single issued write is the
in-range first block `[99, 100)` at byte offset 50688. -/
theorem redo_clip_safety (qs bs ds pbs : Nat)
    (records : List (LogRecord × List RBlock)) :
    (∀ e ∈ (runRedoNormal qs bs ds pbs records).writeLog,
      e.offset + e.size ≤ ds) ∧
    (runRedoNormal 64 512 51200 512
      [({ isExist := true, offset := 99, io_size := 2 },
        [⟨0, List.replicate 512 7⟩,
         ⟨512, List.replicate 512 8⟩])]).nClipped = 1 ∧
    (runRedoNormal 64 512 51200 512
      [({ isExist := true, offset := 99, io_size := 2 },
        [⟨0, List.replicate 512 7⟩,
         ⟨512, List.replicate 512 8⟩])]).nWritten = 1 ∧
    (∀ e ∈ (runRedoNormal 64 512 51200 512
      [({ isExist := true, offset := 99, io_size := 2 },
        [⟨0, List.replicate 512 7⟩,
         ⟨512, List.replicate 512 8⟩])]).writeLog,
      e.offset = 50688 ∧ e.size = 512 ∧ e.offset + e.size ≤ 51200) := by
  obtain ⟨⟨-, hw⟩, hd⟩ := bInv_runRedoNormal qs bs ds pbs records
  refine ⟨?_, by decide, by decide, by decide⟩
  intro e he
  have hb := hw e he
  rw [hd] at hb
  exact hb

end Walb
